import Mathlib

/-!
Verification of the day-19 blueprint search (resource-production economy).

The Rust source (`src/days/day19.rs`) is embedded shallowly: machine
integers become `Int` (all quantities the data model allows are small and
non-negative, so Rust's truncated division/remainder agree with `Int.div`
and `Int.mod` on the domains the theorems quantify over), the `VecDeque`
frontier becomes a two-list functional deque, and the two panicking spots
(`Iterator::max().unwrap()` on an empty consumer list, and unbounded
recursion) are surfaced as the outer `none` of an `Option` result.
-/

inductive Resource where
  | Ore
  | Clay
  | Obsidian
  | Geode
deriving DecidableEq, Repr, Fintype

structure RobotRecipe where
  produces : Resource
  cost : List (Resource × Int)
deriving DecidableEq, Repr

structure Blueprint where
  id : Int
  ore : RobotRecipe
  clay : RobotRecipe
  obsidian : RobotRecipe
  geode : RobotRecipe
deriving DecidableEq, Repr

@[ext]
structure State where
  time : Int
  max_time : Int
  ore : Int
  clay : Int
  obsidian : Int
  geodes : Int
  final_geodes : Int
  ore_robots : Int
  clay_robots : Int
  obsidian_robots : Int
  geode_robots : Int
  built : Option Resource
deriving DecidableEq, Repr

def MAX_TIME : Int := 24

/-- `impl Default for State`: tick 1, one ore robot, one ore in stock. -/
def State.default : State :=
  { time := 1, max_time := MAX_TIME, ore := 1, clay := 0, obsidian := 0,
    geodes := 0, final_geodes := 0, ore_robots := 1, clay_robots := 0,
    obsidian_robots := 0, geode_robots := 0, built := none }

def State.time_left (s : State) : Int := s.max_time - s.time

def State.get_resource (s : State) : Resource → Int
  | .Ore => s.ore
  | .Clay => s.clay
  | .Obsidian => s.obsidian
  | .Geode => s.geodes

def State.get_robots (s : State) : Resource → Int
  | .Ore => s.ore_robots
  | .Clay => s.clay_robots
  | .Obsidian => s.obsidian_robots
  | .Geode => s.geode_robots

/-- `State::ticks_to_build` (Rust `/` and `%` are truncated division). -/
def State.ticks_to_build (current robots cost : Int) : Int :=
  if current ≥ cost then 1
  else
    let ticks := (cost - current).tdiv robots
    let remainder := (cost - current).tmod robots
    (if remainder > 0 then ticks + 1 else ticks) + 1

/-- The first loop of `State::next_state_with`: scan the cost list, bail out
with `none` on a cost kind with zero robots, otherwise accumulate the max
of the per-cost `ticks_to_build`. -/
def State.buildTimeLoop (s : State) : List (Resource × Int) → Int → Option Int
  | [], acc => some acc
  | (res, c) :: rest, acc =>
    if s.get_robots res = 0 then none
    else s.buildTimeLoop rest
      (max acc (State.ticks_to_build (s.get_resource res) (s.get_robots res) c))

/-- `State::step`. -/
def State.step (s : State) (time_units : Int) : Option State :=
  if s.time + time_units > s.max_time then none
  else some { s with
    time := s.time + time_units,
    ore := s.ore + s.ore_robots * time_units,
    clay := s.clay + s.clay_robots * time_units,
    obsidian := s.obsidian + s.obsidian_robots * time_units,
    geodes := s.geodes + s.geode_robots * time_units,
    built := none }

/-- One `-=` of the cost-deduction loop in `State::next_state_with`. -/
def State.sub_resource (s : State) : Resource → Int → State
  | .Ore, c => { s with ore := s.ore - c }
  | .Clay, c => { s with clay := s.clay - c }
  | .Obsidian, c => { s with obsidian := s.obsidian - c }
  | .Geode, c => { s with geodes := s.geodes - c }

def State.applyCosts (s : State) (costs : List (Resource × Int)) : State :=
  costs.foldl (fun st p => st.sub_resource p.1 p.2) s

def State.add_robot (s : State) : Resource → State
  | .Ore => { s with ore_robots := s.ore_robots + 1 }
  | .Clay => { s with clay_robots := s.clay_robots + 1 }
  | .Obsidian => { s with obsidian_robots := s.obsidian_robots + 1 }
  | .Geode => { s with geode_robots := s.geode_robots + 1 }

/-- `State::next_state_with`. -/
def State.next_state_with (s : State) (r : RobotRecipe) : Option State :=
  match s.buildTimeLoop r.cost 0 with
  | none => none
  | some time_to_build =>
    match s.step time_to_build with
    | none => none
    | some st0 =>
      let st1 := (st0.applyCosts r.cost).add_robot r.produces
      let st2 := { st1 with built := some r.produces }
      some (if r.produces = .Geode
            then { st2 with final_geodes := st2.final_geodes + (st2.max_time - st2.time) }
            else st2)

/-- `Iterator::max` over a list of ints (`none` on the empty list). -/
def maxOf : List Int → Option Int
  | [] => none
  | x :: xs =>
    match maxOf xs with
    | none => some x
    | some m => some (max x m)

def Blueprint.all_recipes (bp : Blueprint) : List RobotRecipe :=
  [bp.geode, bp.obsidian, bp.clay, bp.ore]

/-- The costs, across all recipes, charged in resource kind `k`
(the `flat_map ... filter_map` chain inside `Blueprint::next_states`). -/
def Blueprint.consumers (bp : Blueprint) (k : Resource) : List Int :=
  (bp.all_recipes.flatMap (fun r => r.cost)).filterMap
    (fun p => if p.1 = k then some p.2 else none)

def Blueprint.biggest_consumer (bp : Blueprint) (k : Resource) : Option Int :=
  maxOf (bp.consumers k)

/-- One arm of the `map` in `Blueprint::next_states`. The outer `none`
models the `unwrap()` panic when kind `k` has no consumer at all. -/
def Blueprint.attempt (bp : Blueprint) (s : State) (r : RobotRecipe) :
    Option (Option State) :=
  if r.produces = .Geode then some (s.next_state_with r)
  else
    match bp.biggest_consumer r.produces with
    | none => none
    | some b =>
      some (if s.time_left * b > s.get_resource r.produces
            then s.next_state_with r else none)

/-- `Blueprint::next_states`: try the four recipes geode-first, drop the
infeasible/pruned ones; outer `none` models the panic. -/
def Blueprint.next_states (bp : Blueprint) (s : State) : Option (List State) :=
  match bp.attempt s bp.geode, bp.attempt s bp.obsidian,
        bp.attempt s bp.clay, bp.attempt s bp.ore with
  | some a, some b, some c, some d => some ([a, b, c, d].filterMap (fun o => o))
  | _, _, _, _ => none

/-- The `best` update in the loop of `Blueprint::find_best_outcome`. -/
def updateBest (best : Option State) (s : State) : Option State :=
  match best with
  | none => some s
  | some b => if b.final_geodes < s.final_geodes then some s else some b

/-- The `while let` loop of `Blueprint::find_best_outcome`. The `VecDeque`
is a two-list deque: the queue read front-to-back is `front ++ back.reverse`.
`fuel` counts remaining pops; the outer `none` marks fuel exhaustion (the
Rust loop diverging) or a panic inside `next_states`. -/
def Blueprint.searchLoop (bp : Blueprint) :
    Nat → List State → List State → Option State → Option (Option State)
  | _, [], [], best => some best
  | 0, _, _, _ => none
  | fuel+1, [], back, best =>
    match back.reverse with
    | [] => some best
    | s :: front =>
      match bp.next_states s with
      | none => none
      | some succs => bp.searchLoop fuel front succs.reverse (updateBest best s)
  | fuel+1, s :: front, back, best =>
    match bp.next_states s with
    | none => none
    | some succs =>
      bp.searchLoop fuel front (List.reverseAux succs back) (updateBest best s)

/-- Fuel that §`searchLoop_spec` proves sufficient for a queue `q`:
`Σ_{s ∈ q} 5 ^ (max_time + 1 - time)`. -/
def stableFuel (s : State) : Nat := (s.max_time + 1 - s.time).toNat

def queueMeasure (q : List State) : Nat := (q.map (fun s => 5 ^ stableFuel s)).sum

/-- `Blueprint::find_best_outcome` (fuel instantiated with the proven
sufficient bound for the singleton queue). -/
def Blueprint.find_best_outcome (bp : Blueprint) (start : State) :
    Option (Option State) :=
  bp.searchLoop (5 ^ stableFuel start) [start] [] none

/-- The `final_geodes` of the search result from the default start — the
"best terminal yield" quantity multiplied by `id` in
`calculate_quality_level`. -/
def Blueprint.best_final (bp : Blueprint) : Option Int :=
  match bp.find_best_outcome State.default with
  | some (some st) => some st.final_geodes
  | _ => none

/-- `Blueprint::calculate_quality_level` (`none` = the search panicked or
`unwrap()` failed). -/
def Blueprint.calculate_quality_level (bp : Blueprint) : Option Int :=
  bp.best_final.map (fun y => bp.id * y)

/-- `part1` on already-parsed blueprints. -/
def part1 (bps : List Blueprint) : Option Int :=
  (bps.mapM Blueprint.calculate_quality_level).map (fun l => l.foldl (· + ·) 0)

/-- Recursive max of `final_geodes` over the pruned search tree (the
"exhaustive recursive enumeration" reading of the Search Controller),
fuel-indexed. -/
def Blueprint.bestFG (bp : Blueprint) : Nat → State → Int
  | 0, s => s.final_geodes
  | f+1, s =>
    ((bp.next_states s).getD []).foldl (fun acc t => max acc (bp.bestFG f t))
      s.final_geodes

def Blueprint.bestFGs (bp : Blueprint) (s : State) : Int :=
  bp.bestFG (stableFuel s) s

/-- All states of the pruned search tree, fuel-indexed. -/
def Blueprint.treeList (bp : Blueprint) : Nat → State → List State
  | 0, s => [s]
  | f+1, s => s :: ((bp.next_states s).getD []).flatMap (bp.treeList f)

/- Reference scenario A (blueprint 1 of the test input). -/
def bpA : Blueprint :=
  { id := 1,
    ore := { produces := .Ore, cost := [(.Ore, 4)] },
    clay := { produces := .Clay, cost := [(.Ore, 2)] },
    obsidian := { produces := .Obsidian, cost := [(.Ore, 3), (.Clay, 14)] },
    geode := { produces := .Geode, cost := [(.Ore, 2), (.Obsidian, 7)] } }

/- Reference scenario B (blueprint 2 of the test input). -/
def bpB : Blueprint :=
  { id := 2,
    ore := { produces := .Ore, cost := [(.Ore, 2)] },
    clay := { produces := .Clay, cost := [(.Ore, 3)] },
    obsidian := { produces := .Obsidian, cost := [(.Ore, 3), (.Clay, 8)] },
    geode := { produces := .Geode, cost := [(.Ore, 3), (.Obsidian, 12)] } }

/-! ## Well-formedness predicates and auxiliary definitions -/

/-- The four `produces` tags agree with the field names (true of every
parsed blueprint). -/
def Blueprint.tagsOk (bp : Blueprint) : Prop :=
  bp.ore.produces = .Ore ∧ bp.clay.produces = .Clay ∧
  bp.obsidian.produces = .Obsidian ∧ bp.geode.produces = .Geode

/-- Conditions under which `Blueprint::next_states` cannot panic and every
recipe takes at least one tick: correct tags, non-empty cost lists, and a
consumer for each non-terminal kind (so `max().unwrap()` succeeds). -/
def BlueprintOk (bp : Blueprint) : Prop :=
  bp.tagsOk ∧
  bp.ore.cost ≠ [] ∧ bp.clay.cost ≠ [] ∧
  bp.obsidian.cost ≠ [] ∧ bp.geode.cost ≠ [] ∧
  (bp.biggest_consumer .Ore).isSome ∧ (bp.biggest_consumer .Clay).isSome ∧
  (bp.biggest_consumer .Obsidian).isSome

/-- Ledger invariants from the data model: non-negative producer counts and
a tick within the horizon. -/
def StateOk (s : State) : Prop :=
  0 ≤ s.ore_robots ∧ 0 ≤ s.clay_robots ∧ 0 ≤ s.obsidian_robots ∧
  0 ≤ s.geode_robots ∧ s.time ≤ s.max_time

/-- Non-negative stock (the other Ledger invariant). -/
def StockOk (s : State) : Prop :=
  0 ≤ s.ore ∧ 0 ≤ s.clay ∧ 0 ≤ s.obsidian ∧ 0 ≤ s.geodes

/-- The single cost a recipe charges in kind `k` (0 when it charges none). -/
def costVal (r : RobotRecipe) (k : Resource) : Int :=
  ((r.cost.filterMap (fun p => if p.1 = k then some p.2 else none)).headD 0)

/-- The exact shape the reference parser produces, with positive costs:
ore and clay robots cost ore; obsidian costs ore and clay; geode costs ore
and obsidian. -/
def ShapeOk (bp : Blueprint) : Prop :=
  bp.tagsOk ∧
  bp.ore.cost = [(.Ore, costVal bp.ore .Ore)] ∧
  bp.clay.cost = [(.Ore, costVal bp.clay .Ore)] ∧
  bp.obsidian.cost = [(.Ore, costVal bp.obsidian .Ore), (.Clay, costVal bp.obsidian .Clay)] ∧
  bp.geode.cost = [(.Ore, costVal bp.geode .Ore), (.Obsidian, costVal bp.geode .Obsidian)] ∧
  1 ≤ costVal bp.ore .Ore ∧ 1 ≤ costVal bp.clay .Ore ∧
  1 ≤ costVal bp.obsidian .Ore ∧ 1 ≤ costVal bp.obsidian .Clay ∧
  1 ≤ costVal bp.geode .Ore ∧ 1 ≤ costVal bp.geode .Obsidian

instance (bp : Blueprint) : Decidable (Blueprint.tagsOk bp) := by
  unfold Blueprint.tagsOk
  infer_instance

instance (bp : Blueprint) : Decidable (BlueprintOk bp) := by
  unfold BlueprintOk
  infer_instance

instance (s : State) : Decidable (StateOk s) := by
  unfold StateOk
  infer_instance

instance (s : State) : Decidable (StockOk s) := by
  unfold StockOk
  infer_instance

instance (bp : Blueprint) : Decidable (ShapeOk bp) := by
  unfold ShapeOk
  infer_instance

/-! Spec-side definitions used for refinement comparisons. -/

/-- The initial ledger exactly as claim C2 words it: one producer of the
first resource kind, zero stock of every kind, tick 1. -/
def canonicalInitClaim : State :=
  { time := 1, max_time := MAX_TIME, ore := 0, clay := 0, obsidian := 0,
    geodes := 0, final_geodes := 0, ore_robots := 1, clay_robots := 0,
    obsidian_robots := 0, geode_robots := 0, built := none }

/-- The spec's per-cost minimum ticks `t`: 0 when the stock covers the
cost, else `ceil((qty - stock) / producers)`. -/
def specCostTicks (s : State) (p : Resource × Int) : Int :=
  if s.get_resource p.1 ≥ p.2 then 0
  else (p.2 - s.get_resource p.1 + s.get_robots p.1 - 1) / s.get_robots p.1

/-- The spec's `build_time = 1 + max(t across costs)`. -/
def specBuildTime (s : State) (r : RobotRecipe) : Int :=
  1 + (r.cost.map (specCostTicks s)).foldl max 0

/-! ## Branch-and-bound machinery for evaluating the search in the kernel

`relExtra` is a relaxed greedy forecast: one free clay producer per tick,
obsidian producers gated only by the cumulative clay threshold
`(nob+1)*obClay`, terminal builds gated only by the cumulative obsidian
threshold `(ng+1)*gOb`, each contributing the ticks that remain. It
over-approximates every continuation of a concrete ledger, which lets a
branch-and-bound traversal prune without changing the maximum. -/

def relExtra (obClay gOb : Int) : Nat → Int → Int → Int → Int → Int → Int → Int
  | 0, _, _, _, _, _, _ => 0
  | n+1, cp, clayR, op, obsR, nob, ng =>
    (if (ng + 1) * gOb ≤ op + obsR then (n : Int) else 0) +
      relExtra obClay gOb n (cp + clayR) (clayR + 1) (op + obsR)
        (obsR + (if (nob + 1) * obClay ≤ cp + clayR then 1 else 0))
        (nob + (if (nob + 1) * obClay ≤ cp + clayR then 1 else 0))
        (ng + (if (ng + 1) * gOb ≤ op + obsR then 1 else 0))

/-- Upper bound on the terminal yield still obtainable from `s`. -/
def Blueprint.ubound (bp : Blueprint) (s : State) : Int :=
  relExtra (costVal bp.obsidian .Clay) (costVal bp.geode .Obsidian)
    s.time_left.toNat s.clay s.clay_robots s.obsidian s.obsidian_robots 0 0

/-- Branch-and-bound traversal of the same pruned tree as `bestFG`,
carrying the best value seen so far and skipping subtrees the bound rules
out. -/
def Blueprint.bbFG (bp : Blueprint) : Nat → State → Int → Int
  | 0, s, acc => max acc s.final_geodes
  | f+1, s, acc =>
    if s.final_geodes + bp.ubound s ≤ acc then acc
    else
      ((bp.next_states s).getD []).foldl (fun a t => bp.bbFG f t a)
        (max acc s.final_geodes)

/-! ## Basic lemmas about the transition engine -/

def sumCost (costs : List (Resource × Int)) (k : Resource) : Int :=
  (costs.map (fun p => if p.1 = k then p.2 else 0)).sum

/-- Max of the per-cost `ticks_to_build` accumulated from 0, the value the
first loop of `next_state_with` computes when no producer is missing. -/
def ttbMax (s : State) (costs : List (Resource × Int)) : Int :=
  costs.foldl
    (fun a p => max a (State.ticks_to_build (s.get_resource p.1) (s.get_robots p.1) p.2)) 0

theorem sub_resource_get (s : State) (a : Resource) (c : Int) (k : Resource) :
    (s.sub_resource a c).get_resource k =
      s.get_resource k - (if a = k then c else 0) := by
  cases a <;> cases k <;> simp [State.sub_resource, State.get_resource]

theorem sub_resource_fields (s : State) (a : Resource) (c : Int) :
    (s.sub_resource a c).time = s.time ∧ (s.sub_resource a c).max_time = s.max_time ∧
    (s.sub_resource a c).final_geodes = s.final_geodes ∧
    (s.sub_resource a c).built = s.built ∧
    (∀ k, (s.sub_resource a c).get_robots k = s.get_robots k) := by
  cases a <;>
    exact ⟨rfl, rfl, rfl, rfl, by intro k; cases k <;> rfl⟩

theorem applyCosts_get (costs : List (Resource × Int)) (s : State) (k : Resource) :
    (s.applyCosts costs).get_resource k = s.get_resource k - sumCost costs k := by
  induction costs generalizing s with
  | nil => simp [State.applyCosts, sumCost]
  | cons p rest ih =>
    have : s.applyCosts (p :: rest) = (s.sub_resource p.1 p.2).applyCosts rest := rfl
    rw [this, ih, sub_resource_get]
    simp only [sumCost, List.map_cons, List.sum_cons]
    by_cases h : p.1 = k <;> simp [h] <;> ring

theorem applyCosts_fields (costs : List (Resource × Int)) (s : State) :
    (s.applyCosts costs).time = s.time ∧ (s.applyCosts costs).max_time = s.max_time ∧
    (s.applyCosts costs).final_geodes = s.final_geodes ∧
    (s.applyCosts costs).built = s.built ∧
    (∀ k, (s.applyCosts costs).get_robots k = s.get_robots k) := by
  induction costs generalizing s with
  | nil => exact ⟨rfl, rfl, rfl, rfl, fun _ => rfl⟩
  | cons p rest ih =>
    have h0 := sub_resource_fields s p.1 p.2
    have h1 := ih (s.sub_resource p.1 p.2)
    refine ⟨?_, ?_, ?_, ?_, ?_⟩
    · rw [show (s.applyCosts (p :: rest)) = (s.sub_resource p.1 p.2).applyCosts rest from rfl,
        h1.1, h0.1]
    · rw [show (s.applyCosts (p :: rest)) = (s.sub_resource p.1 p.2).applyCosts rest from rfl,
        h1.2.1, h0.2.1]
    · rw [show (s.applyCosts (p :: rest)) = (s.sub_resource p.1 p.2).applyCosts rest from rfl,
        h1.2.2.1, h0.2.2.1]
    · rw [show (s.applyCosts (p :: rest)) = (s.sub_resource p.1 p.2).applyCosts rest from rfl,
        h1.2.2.2.1, h0.2.2.2.1]
    · intro k
      rw [show (s.applyCosts (p :: rest)) = (s.sub_resource p.1 p.2).applyCosts rest from rfl,
        h1.2.2.2.2 k, h0.2.2.2.2 k]

theorem add_robot_get (s : State) (a k : Resource) :
    (s.add_robot a).get_robots k = s.get_robots k + (if a = k then 1 else 0) := by
  cases a <;> cases k <;> simp [State.add_robot, State.get_robots]

theorem add_robot_fields (s : State) (a : Resource) :
    (s.add_robot a).time = s.time ∧ (s.add_robot a).max_time = s.max_time ∧
    (s.add_robot a).final_geodes = s.final_geodes ∧
    (s.add_robot a).built = s.built ∧
    (∀ k, (s.add_robot a).get_resource k = s.get_resource k) := by
  cases a <;> exact ⟨rfl, rfl, rfl, rfl, by intro k; cases k <;> rfl⟩

theorem ceil_div_eq (a b : Int) (hb : 0 < b) (ha : 0 ≤ a) :
    a / b + (if 0 < a % b then 1 else 0) = (a + b - 1) / b := by
  obtain ⟨q, r, hr0, hrb, hqr⟩ : ∃ q r : Int, 0 ≤ r ∧ r < b ∧ a = b * q + r :=
    ⟨a / b, a % b, Int.emod_nonneg a (by omega), Int.emod_lt_of_pos a hb,
      (Int.ediv_add_emod a b).symm⟩
  have hdm : a / b = q ∧ a % b = r :=
    (Int.ediv_emod_unique hb).mpr ⟨by omega, hr0, hrb⟩
  have hdiv : a / b = q := hdm.1
  have hmod : a % b = r := hdm.2
  rcases eq_or_lt_of_le hr0 with hr | hr
  · have : (a + b - 1) / b = q := by
      rw [hqr, ← hr]
      have : b * q + 0 + b - 1 = (b - 1) + q * b := by ring
      rw [this, Int.add_mul_ediv_right _ _ (by omega : b ≠ 0),
        Int.ediv_eq_zero_of_lt (by omega) (by omega)]
      omega
    rw [hdiv, hmod, this, ← hr]
    simp
  · have : (a + b - 1) / b = q + 1 := by
      rw [hqr]
      have : b * q + r + b - 1 = (r - 1) + (q + 1) * b := by ring
      rw [this, Int.add_mul_ediv_right _ _ (by omega : b ≠ 0),
        Int.ediv_eq_zero_of_lt (by omega) (by omega)]
      omega
    rw [hdiv, hmod, this]
    simp [hr]

/-- `ticks_to_build` agrees with `1 +` the spec's per-cost minimum ticks. -/
theorem ticks_to_build_eq (current robots cost : Int) (hr : 0 < robots) :
    State.ticks_to_build current robots cost =
      1 + (if current ≥ cost then 0 else (cost - current + robots - 1) / robots) := by
  unfold State.ticks_to_build
  by_cases h : current ≥ cost
  · simp [h]
  · have ha : 0 ≤ cost - current := by omega
    simp only [h, if_false]
    rw [Int.tdiv_eq_ediv ha (le_of_lt hr), Int.tmod_eq_emod ha (le_of_lt hr)]
    have := ceil_div_eq (cost - current) robots hr ha
    by_cases hm : 0 < (cost - current) % robots <;> simp [hm] at this ⊢ <;> omega

theorem ticks_to_build_pos (current robots cost : Int) (hr : 0 < robots) :
    1 ≤ State.ticks_to_build current robots cost := by
  rw [ticks_to_build_eq current robots cost hr]
  by_cases h : current ≥ cost
  · simp [h]
  · have : 0 ≤ (cost - current + robots - 1) / robots :=
      Int.ediv_nonneg (by omega) (by omega)
    simp only [h, if_false]
    omega

/-- Enough production happens while waiting: after `ticks_to_build` ticks
the stock covers the cost. -/
theorem ticks_to_build_covers (current robots cost : Int) (hr : 0 < robots) :
    cost ≤ current + robots * State.ticks_to_build current robots cost := by
  rw [ticks_to_build_eq current robots cost hr]
  by_cases h : current ≥ cost
  · simp only [h, if_true]
    nlinarith
  · simp only [h, if_false]
    have key : cost - current ≤ robots * ((cost - current + robots - 1) / robots) := by
      have h1 : (cost - current + robots - 1) % robots < robots :=
        Int.emod_lt_of_pos _ hr
      have h2 : robots * ((cost - current + robots - 1) / robots)
          = (cost - current + robots - 1) - (cost - current + robots - 1) % robots := by
        have := Int.ediv_add_emod (cost - current + robots - 1) robots
        omega
      omega
    linarith [key]

theorem buildTimeLoop_none (s : State) (costs : List (Resource × Int)) (acc : Int)
    (h : ∃ p ∈ costs, s.get_robots p.1 = 0) :
    s.buildTimeLoop costs acc = none := by
  induction costs generalizing acc with
  | nil => simp at h
  | cons p rest ih =>
    obtain ⟨a, c⟩ := p
    obtain ⟨q, hq, hq0⟩ := h
    by_cases hp : s.get_robots a = 0
    · simp [State.buildTimeLoop, hp]
    · simp only [State.buildTimeLoop, hp, if_false]
      rcases List.mem_cons.mp hq with hq' | hq'
      · subst hq'
        exact absurd hq0 hp
      · exact ih _ ⟨q, hq', hq0⟩

theorem buildTimeLoop_some (s : State) (costs : List (Resource × Int)) (acc : Int)
    (h : ∀ p ∈ costs, s.get_robots p.1 ≠ 0) :
    s.buildTimeLoop costs acc = some (costs.foldl
      (fun a p => max a (State.ticks_to_build (s.get_resource p.1) (s.get_robots p.1) p.2))
      acc) := by
  induction costs generalizing acc with
  | nil => rfl
  | cons p rest ih =>
    obtain ⟨a, c⟩ := p
    have hp : s.get_robots a ≠ 0 := h (a, c) (List.mem_cons_self (a, c) rest)
    simp only [State.buildTimeLoop, hp, if_false, List.foldl_cons]
    exact ih _ (fun q hq => h q (List.mem_cons_of_mem (a, c) hq))

/-- The state `step` produces when the deadline allows it. -/
def stepState (s : State) (t : Int) : State :=
  { s with
    time := s.time + t,
    ore := s.ore + s.ore_robots * t,
    clay := s.clay + s.clay_robots * t,
    obsidian := s.obsidian + s.obsidian_robots * t,
    geodes := s.geodes + s.geode_robots * t,
    built := none }

theorem step_eq (s : State) (t : Int) :
    s.step t = if s.max_time < s.time + t then none else some (stepState s t) := rfl

theorem stepState_res (s : State) (T : Int) (k : Resource) :
    (stepState s T).get_resource k = s.get_resource k + s.get_robots k * T := by
  cases k <;> rfl

theorem stepState_robots (s : State) (T : Int) (k : Resource) :
    (stepState s T).get_robots k = s.get_robots k := by
  cases k <;> rfl

/-- The successor `next_state_with` produces for build time `T`, written
field by field. -/
def buildResult (s : State) (r : RobotRecipe) (T : Int) : State :=
  { time := s.time + T,
    max_time := s.max_time,
    ore := s.ore + s.ore_robots * T - sumCost r.cost .Ore,
    clay := s.clay + s.clay_robots * T - sumCost r.cost .Clay,
    obsidian := s.obsidian + s.obsidian_robots * T - sumCost r.cost .Obsidian,
    geodes := s.geodes + s.geode_robots * T - sumCost r.cost .Geode,
    final_geodes := s.final_geodes +
      (if r.produces = .Geode then s.max_time - (s.time + T) else 0),
    ore_robots := s.ore_robots + (if r.produces = .Ore then 1 else 0),
    clay_robots := s.clay_robots + (if r.produces = .Clay then 1 else 0),
    obsidian_robots := s.obsidian_robots + (if r.produces = .Obsidian then 1 else 0),
    geode_robots := s.geode_robots + (if r.produces = .Geode then 1 else 0),
    built := some r.produces }

/-- The chained form the source computes the successor in. -/
def buildResultChain (s : State) (r : RobotRecipe) (T : Int) : State :=
  let st2 := { ((stepState s T).applyCosts r.cost).add_robot r.produces with
    built := some r.produces }
  if r.produces = .Geode
  then { st2 with final_geodes := st2.final_geodes + (st2.max_time - st2.time) }
  else st2

theorem buildResultChain_eq (s : State) (r : RobotRecipe) (T : Int) :
    buildResultChain s r T = buildResult s r T := by
  have hA := applyCosts_fields r.cost (stepState s T)
  have hB := add_robot_fields ((stepState s T).applyCosts r.cost) r.produces
  set A := ((stepState s T).applyCosts r.cost).add_robot r.produces with hAdef
  unfold buildResultChain buildResult
  by_cases hg : r.produces = .Geode
  · rw [if_pos hg]
    ext
    · show A.time = _
      rw [hB.1, hA.1]
      rfl
    · show A.max_time = _
      rw [hB.2.1, hA.2.1]
      rfl
    · show A.get_resource .Ore = _
      rw [hB.2.2.2.2 .Ore, applyCosts_get, stepState_res]
      rfl
    · show A.get_resource .Clay = _
      rw [hB.2.2.2.2 .Clay, applyCosts_get, stepState_res]
      rfl
    · show A.get_resource .Obsidian = _
      rw [hB.2.2.2.2 .Obsidian, applyCosts_get, stepState_res]
      rfl
    · show A.get_resource .Geode = _
      rw [hB.2.2.2.2 .Geode, applyCosts_get, stepState_res]
      rfl
    · show A.final_geodes + (A.max_time - A.time) = _
      rw [hB.2.2.1, hA.2.2.1, hB.2.1, hA.2.1, hB.1, hA.1, if_pos hg]
      rfl
    · show A.get_robots .Ore = _
      rw [add_robot_get, hA.2.2.2.2 .Ore, stepState_robots]
      rfl
    · show A.get_robots .Clay = _
      rw [add_robot_get, hA.2.2.2.2 .Clay, stepState_robots]
      rfl
    · show A.get_robots .Obsidian = _
      rw [add_robot_get, hA.2.2.2.2 .Obsidian, stepState_robots]
      rfl
    · show A.get_robots .Geode = _
      rw [add_robot_get, hA.2.2.2.2 .Geode, stepState_robots]
      rfl
    · rfl
  · rw [if_neg hg]
    ext
    · show A.time = _
      rw [hB.1, hA.1]
      rfl
    · show A.max_time = _
      rw [hB.2.1, hA.2.1]
      rfl
    · show A.get_resource .Ore = _
      rw [hB.2.2.2.2 .Ore, applyCosts_get, stepState_res]
      rfl
    · show A.get_resource .Clay = _
      rw [hB.2.2.2.2 .Clay, applyCosts_get, stepState_res]
      rfl
    · show A.get_resource .Obsidian = _
      rw [hB.2.2.2.2 .Obsidian, applyCosts_get, stepState_res]
      rfl
    · show A.get_resource .Geode = _
      rw [hB.2.2.2.2 .Geode, applyCosts_get, stepState_res]
      rfl
    · show A.final_geodes = _
      rw [hB.2.2.1, hA.2.2.1, if_neg hg]
      show s.final_geodes = s.final_geodes + 0
      omega
    · show A.get_robots .Ore = _
      rw [add_robot_get, hA.2.2.2.2 .Ore, stepState_robots]
      rfl
    · show A.get_robots .Clay = _
      rw [add_robot_get, hA.2.2.2.2 .Clay, stepState_robots]
      rfl
    · show A.get_robots .Obsidian = _
      rw [add_robot_get, hA.2.2.2.2 .Obsidian, stepState_robots]
      rfl
    · show A.get_robots .Geode = _
      rw [add_robot_get, hA.2.2.2.2 .Geode, stepState_robots]
      rfl
    · rfl

/-- `next_state_with` when every cost kind has a producer: wait
`ttbMax`, fail exactly when that passes the deadline. -/
theorem next_state_with_eq (s : State) (r : RobotRecipe)
    (h : ∀ p ∈ r.cost, s.get_robots p.1 ≠ 0) :
    s.next_state_with r =
      if s.max_time < s.time + ttbMax s r.cost then none
      else some (buildResult s r (ttbMax s r.cost)) := by
  have h0 : s.next_state_with r =
      if s.max_time < s.time + ttbMax s r.cost then none
      else some (buildResultChain s r (ttbMax s r.cost)) := by
    unfold State.next_state_with
    rw [buildTimeLoop_some s r.cost 0 h]
    show (match s.step (ttbMax s r.cost) with
      | none => none
      | some st0 => _) = _
    rw [step_eq]
    by_cases hd : s.max_time < s.time + ttbMax s r.cost
    · simp [hd]
    · rw [if_neg hd, if_neg hd]
      rfl
  rw [h0, buildResultChain_eq]

theorem next_state_with_none_of_zero (s : State) (r : RobotRecipe)
    (h : ∃ p ∈ r.cost, s.get_robots p.1 = 0) :
    s.next_state_with r = none := by
  unfold State.next_state_with
  rw [buildTimeLoop_none s r.cost 0 h]

theorem specCostTicks_nonneg (s : State) (p : Resource × Int)
    (h : 0 < s.get_robots p.1) : 0 ≤ specCostTicks s p := by
  unfold specCostTicks
  by_cases hc : s.get_resource p.1 ≥ p.2
  · simp [hc]
  · simp only [hc, if_false]
    exact Int.ediv_nonneg (by omega) (by omega)

theorem ttb_fold_shift (s : State) (rest : List (Resource × Int)) :
    ∀ a : Int, (∀ p ∈ rest, 0 < s.get_robots p.1) →
    rest.foldl
      (fun a p => max a (State.ticks_to_build (s.get_resource p.1) (s.get_robots p.1) p.2))
      (1 + a)
      = 1 + rest.foldl (fun a p => max a (specCostTicks s p)) a := by
  induction rest with
  | nil => intro a _; rfl
  | cons q l ih =>
    intro a h
    have hq : 0 < s.get_robots q.1 := h q (List.mem_cons_self q l)
    have htick : State.ticks_to_build (s.get_resource q.1) (s.get_robots q.1) q.2
        = 1 + specCostTicks s q := by
      rw [ticks_to_build_eq _ _ _ hq]; rfl
    simp only [List.foldl_cons, htick]
    rw [show max (1 + a) (1 + specCostTicks s q) = 1 + max a (specCostTicks s q) by omega]
    exact ih _ (fun p hp => h p (List.mem_cons_of_mem q hp))

/-- The build-time loop computes the spec's `build_time`. -/
theorem ttbMax_eq_spec (s : State) (r : RobotRecipe)
    (h1 : ∀ p ∈ r.cost, 0 < s.get_robots p.1) (h2 : r.cost ≠ []) :
    ttbMax s r.cost = specBuildTime s r := by
  obtain ⟨p, rest, hc⟩ : ∃ p rest, r.cost = p :: rest := by
    cases hr : r.cost with
    | nil => exact absurd hr h2
    | cons p rest => exact ⟨p, rest, rfl⟩
  have hp : 0 < s.get_robots p.1 := h1 p (by rw [hc]; exact List.mem_cons_self p rest)
  have hrest : ∀ q ∈ rest, 0 < s.get_robots q.1 :=
    fun q hq => h1 q (by rw [hc]; exact List.mem_cons_of_mem p hq)
  have htick : State.ticks_to_build (s.get_resource p.1) (s.get_robots p.1) p.2
      = 1 + specCostTicks s p := by
    rw [ticks_to_build_eq _ _ _ hp]; rfl
  have hnn := specCostTicks_nonneg s p hp
  unfold ttbMax specBuildTime
  rw [hc]
  simp only [List.foldl_cons, List.map_cons, htick]
  rw [show max (0 : Int) (1 + specCostTicks s p) = 1 + max 0 (specCostTicks s p) by omega,
    ttb_fold_shift s rest _ hrest, List.foldl_map]

theorem buildResult_time (s : State) (r : RobotRecipe) (T : Int) :
    (buildResult s r T).time = s.time + T := rfl

theorem buildResult_max_time (s : State) (r : RobotRecipe) (T : Int) :
    (buildResult s r T).max_time = s.max_time := rfl

theorem buildResult_built (s : State) (r : RobotRecipe) (T : Int) :
    (buildResult s r T).built = some r.produces := rfl

theorem buildResult_final (s : State) (r : RobotRecipe) (T : Int) :
    (buildResult s r T).final_geodes =
      s.final_geodes + (if r.produces = .Geode then s.max_time - (s.time + T) else 0) := rfl

theorem buildResult_res (s : State) (r : RobotRecipe) (T : Int) (k : Resource) :
    (buildResult s r T).get_resource k =
      s.get_resource k + s.get_robots k * T - sumCost r.cost k := by
  cases k <;> rfl

theorem buildResult_robots (s : State) (r : RobotRecipe) (T : Int) (k : Resource) :
    (buildResult s r T).get_robots k =
      s.get_robots k + (if r.produces = k then 1 else 0) := by
  cases k <;> rfl

theorem foldl_max_init_le {α : Type} (f : α → Int) (l : List α) (a : Int) :
    a ≤ l.foldl (fun x y => max x (f y)) a := by
  induction l generalizing a with
  | nil => exact le_refl a
  | cons x l ih => exact le_trans (le_max_left a (f x)) (ih _)

theorem foldl_max_mem_le {α : Type} (f : α → Int) (l : List α) (a : Int) :
    ∀ x ∈ l, f x ≤ l.foldl (fun x y => max x (f y)) a := by
  induction l generalizing a with
  | nil => intro x hx; simp at hx
  | cons y l ih =>
    intro x hx
    rcases List.mem_cons.mp hx with h | h
    · subst h
      exact le_trans (le_max_right a (f x)) (foldl_max_init_le f l _)
    · exact ih _ x h

theorem ttbMax_nonneg (s : State) (costs : List (Resource × Int)) :
    0 ≤ ttbMax s costs :=
  foldl_max_init_le _ costs 0

theorem ttbMax_pos (s : State) (costs : List (Resource × Int))
    (hne : costs ≠ []) (h : ∀ p ∈ costs, 0 < s.get_robots p.1) :
    1 ≤ ttbMax s costs := by
  cases costs with
  | nil => exact absurd rfl hne
  | cons p rest =>
    have hp : 0 < s.get_robots p.1 := h p (List.mem_cons_self p rest)
    have h1 : State.ticks_to_build (s.get_resource p.1) (s.get_robots p.1) p.2 ≤
        ttbMax s (p :: rest) :=
      foldl_max_mem_le _ (p :: rest) 0 p (List.mem_cons_self p rest)
    have := ticks_to_build_pos (s.get_resource p.1) (s.get_robots p.1) p.2 hp
    omega

theorem mem_le_ttbMax (s : State) (costs : List (Resource × Int))
    (p : Resource × Int) (hp : p ∈ costs) :
    State.ticks_to_build (s.get_resource p.1) (s.get_robots p.1) p.2 ≤ ttbMax s costs :=
  foldl_max_mem_le _ costs 0 p hp

theorem sumCost_eq_zero (costs : List (Resource × Int)) (k : Resource)
    (h : ∀ p ∈ costs, p.1 ≠ k) : sumCost costs k = 0 := by
  induction costs with
  | nil => rfl
  | cons p rest ih =>
    have hp : p.1 ≠ k := h p (List.mem_cons_self p rest)
    simp only [sumCost, List.map_cons, List.sum_cons, if_neg hp]
    rw [show ((0 : Int) + (rest.map (fun p => if p.1 = k then p.2 else 0)).sum) =
      sumCost rest k by simp [sumCost]]
    exact ih (fun q hq => h q (List.mem_cons_of_mem p hq))

theorem sumCost_eq_of_mem (costs : List (Resource × Int)) (k : Resource) (c : Int)
    (hmem : (k, c) ∈ costs) (hdist : costs.Pairwise (fun p q => p.1 ≠ q.1)) :
    sumCost costs k = c := by
  induction costs with
  | nil => simp at hmem
  | cons p rest ih =>
    rcases List.pairwise_cons.mp hdist with ⟨hp, hrest⟩
    rcases List.mem_cons.mp hmem with h | h
    · subst h
      have hhead : sumCost ((k, c) :: rest) k = c + sumCost rest k := by
        simp [sumCost]
      rw [hhead, sumCost_eq_zero rest k (fun q hq hqk => hp q hq (by rw [hqk]))]
      omega
    · have hpk : p.1 ≠ k := by
        intro hk
        exact hp (k, c) h (by rw [hk])
      simp only [sumCost, List.map_cons, List.sum_cons, if_neg hpk]
      rw [show ((0 : Int) + (rest.map (fun p => if p.1 = k then p.2 else 0)).sum) =
        sumCost rest k by simp [sumCost]]
      exact ih h hrest

/-- C3: for a ledger whose producers cover every cost kind of a (non-empty)
recipe, the transition advances time by exactly the spec's
`build_time = 1 + max t` (with `t = 0` or `ceil((qty-stock)/producers)`
per cost), and it is infeasible (`none`) exactly when
`tick + build_time > deadline`. -/
theorem claim_C3 (L : State) (R : RobotRecipe)
    (hprod : ∀ p ∈ R.cost, 0 < L.get_robots p.1)
    (hne : R.cost ≠ []) :
    (∀ L', L.next_state_with R = some L' → L'.time = L.time + specBuildTime L R) ∧
    (L.next_state_with R = none ↔ L.max_time < L.time + specBuildTime L R) := by
  have h0 : ∀ p ∈ R.cost, L.get_robots p.1 ≠ 0 := fun p hp => by
    have := hprod p hp; omega
  have heq := next_state_with_eq L R h0
  rw [ttbMax_eq_spec L R hprod hne] at heq
  constructor
  · intro L' hL'
    rw [heq] at hL'
    by_cases hd : L.max_time < L.time + specBuildTime L R
    · rw [if_pos hd] at hL'
      cases hL'
    · rw [if_neg hd] at hL'
      cases hL'
      rw [buildResult_time]
  · rw [heq]
    by_cases hd : L.max_time < L.time + specBuildTime L R <;> simp [hd]

theorem claim_C3_witness :
    (∀ p ∈ bpA.clay.cost, 0 < State.default.get_robots p.1) ∧
    bpA.clay.cost ≠ [] ∧
    ((∀ L', State.default.next_state_with bpA.clay = some L' →
        L'.time = State.default.time + specBuildTime State.default bpA.clay) ∧
      (State.default.next_state_with bpA.clay = none ↔
        State.default.max_time < State.default.time + specBuildTime State.default bpA.clay)) :=
  ⟨by decide, by decide, claim_C3 State.default bpA.clay (by decide) (by decide)⟩

/-- C5: a feasible transition on a recipe with at least one cost entry,
from a ledger with non-negative producer counts, strictly increases the
tick and never passes the deadline. -/
theorem claim_C5 (L : State) (R : RobotRecipe)
    (hne : R.cost ≠ [])
    (hrob : ∀ k, 0 ≤ L.get_robots k) :
    ∀ L', L.next_state_with R = some L' → L.time < L'.time ∧ L'.time ≤ L.max_time := by
  intro L' hL'
  by_cases hz : ∀ p ∈ R.cost, L.get_robots p.1 ≠ 0
  · have hpos : ∀ p ∈ R.cost, 0 < L.get_robots p.1 := fun p hp => by
      have h1 := hz p hp
      have h2 := hrob p.1
      omega
    have heq := next_state_with_eq L R hz
    rw [heq] at hL'
    by_cases hd : L.max_time < L.time + ttbMax L R.cost
    · rw [if_pos hd] at hL'
      cases hL'
    · rw [if_neg hd] at hL'
      cases hL'
      have := ttbMax_pos L R.cost hne hpos
      rw [buildResult_time]
      omega
  · push_neg at hz
    obtain ⟨p, hp, hp0⟩ := hz
    rw [next_state_with_none_of_zero L R ⟨p, hp, hp0⟩] at hL'
    cases hL'

theorem claim_C5_witness :
    bpA.clay.cost ≠ [] ∧ (∀ k, 0 ≤ State.default.get_robots k) ∧
    (∀ L', State.default.next_state_with bpA.clay = some L' →
      State.default.time < L'.time ∧ L'.time ≤ State.default.max_time) :=
  ⟨by decide, by decide, claim_C5 State.default bpA.clay (by decide) (by decide)⟩

/-- C6: from a ledger with non-negative stock and producer counts, a
feasible transition on a recipe with pairwise-distinct cost kinds leaves
every stock quantity non-negative: the debug assertion cannot fire. -/
theorem claim_C6 (L : State) (R : RobotRecipe)
    (hrob : ∀ k, 0 ≤ L.get_robots k)
    (hstock : ∀ k, 0 ≤ L.get_resource k)
    (hdist : R.cost.Pairwise (fun p q => p.1 ≠ q.1)) :
    ∀ L', L.next_state_with R = some L' → ∀ k, 0 ≤ L'.get_resource k := by
  intro L' hL' k
  by_cases hz : ∀ p ∈ R.cost, L.get_robots p.1 ≠ 0
  · have heq := next_state_with_eq L R hz
    rw [heq] at hL'
    by_cases hd : L.max_time < L.time + ttbMax L R.cost
    · rw [if_pos hd] at hL'
      cases hL'
    · rw [if_neg hd] at hL'
      cases hL'
      rw [buildResult_res]
      set T := ttbMax L R.cost with hT
      have hT0 : 0 ≤ T := ttbMax_nonneg L R.cost
      by_cases hk : ∃ c, (k, c) ∈ R.cost
      · obtain ⟨c, hmem⟩ := hk
        have hrk : 0 < L.get_robots k := by
          have h1 : L.get_robots k ≠ 0 := hz (k, c) hmem
          have h2 := hrob k
          omega
        have hsum : sumCost R.cost k = c := sumCost_eq_of_mem R.cost k c hmem hdist
        have hcover := ticks_to_build_covers (L.get_resource k) (L.get_robots k) c hrk
        have hle : State.ticks_to_build (L.get_resource k) (L.get_robots k) c ≤ T :=
          mem_le_ttbMax L R.cost (k, c) hmem
        have hmul : L.get_robots k * State.ticks_to_build (L.get_resource k) (L.get_robots k) c
            ≤ L.get_robots k * T :=
          mul_le_mul_of_nonneg_left hle (le_of_lt hrk)
        rw [hsum]
        omega
      · push_neg at hk
        have hsum : sumCost R.cost k = 0 := by
          apply sumCost_eq_zero
          intro p hp hpk
          exact hk p.2 (by rw [← hpk]; exact hp)
        have h1 := hstock k
        have h2 : 0 ≤ L.get_robots k * T := mul_nonneg (hrob k) hT0
        rw [hsum]
        omega
  · push_neg at hz
    obtain ⟨p, hp, hp0⟩ := hz
    rw [next_state_with_none_of_zero L R ⟨p, hp, hp0⟩] at hL'
    cases hL'

theorem claim_C6_witness :
    (∀ k, 0 ≤ State.default.get_robots k) ∧ (∀ k, 0 ≤ State.default.get_resource k) ∧
    bpA.obsidian.cost.Pairwise (fun p q => p.1 ≠ q.1) ∧
    (∀ L', State.default.next_state_with bpA.obsidian = some L' →
      ∀ k, 0 ≤ L'.get_resource k) :=
  ⟨by decide, by decide, by decide,
    claim_C6 State.default bpA.obsidian (by decide) (by decide) (by decide)⟩

/-- C7: when some cost kind of the recipe has zero producers, the
transition engine reports the normal negative outcome `none` (and, being a
pure function, leaves the input ledger untouched). -/
theorem claim_C7 (L : State) (R : RobotRecipe)
    (h : ∃ p ∈ R.cost, L.get_robots p.1 = 0) :
    L.next_state_with R = none :=
  next_state_with_none_of_zero L R h

theorem claim_C7_witness :
    (∃ p ∈ bpA.obsidian.cost, State.default.get_robots p.1 = 0) ∧
    State.default.next_state_with bpA.obsidian = none :=
  ⟨by decide, claim_C7 State.default bpA.obsidian (by decide)⟩

/-- What one arm of `next_states` contributes when it does not panic. -/
def candidate (bp : Blueprint) (s : State) (r : RobotRecipe) : Option State :=
  if r.produces = .Geode then s.next_state_with r
  else
    match bp.biggest_consumer r.produces with
    | none => none
    | some b =>
      if s.time_left * b > s.get_resource r.produces then s.next_state_with r else none

theorem attempt_eq_candidate (bp : Blueprint) (s : State) (r : RobotRecipe)
    (h : r.produces = .Geode ∨ (bp.biggest_consumer r.produces).isSome) :
    bp.attempt s r = some (candidate bp s r) := by
  unfold Blueprint.attempt candidate
  by_cases hg : r.produces = .Geode
  · rw [if_pos hg, if_pos hg]
  · rw [if_neg hg, if_neg hg]
    rcases h with h | h
    · exact absurd h hg
    · cases hb : bp.biggest_consumer r.produces with
      | none => rw [hb] at h; cases h
      | some b => rfl

theorem next_states_eq (bp : Blueprint) (s : State) (hok : BlueprintOk bp) :
    bp.next_states s = some
      (([candidate bp s bp.geode, candidate bp s bp.obsidian,
         candidate bp s bp.clay, candidate bp s bp.ore]).filterMap (fun o => o)) := by
  obtain ⟨⟨hto, htc, htb, htg⟩, _, _, _, _, hbo, hbc, hbb⟩ := hok
  unfold Blueprint.next_states
  rw [attempt_eq_candidate bp s bp.geode (Or.inl htg),
    attempt_eq_candidate bp s bp.obsidian (Or.inr (htb ▸ hbb)),
    attempt_eq_candidate bp s bp.clay (Or.inr (htc ▸ hbc)),
    attempt_eq_candidate bp s bp.ore (Or.inr (hto ▸ hbo))]

theorem mem_next_states (bp : Blueprint) (s : State) (t : State) (hok : BlueprintOk bp) :
    t ∈ (bp.next_states s).getD [] ↔
      (candidate bp s bp.geode = some t ∨ candidate bp s bp.obsidian = some t ∨
       candidate bp s bp.clay = some t ∨ candidate bp s bp.ore = some t) := by
  rw [next_states_eq bp s hok]
  simp only [Option.getD_some, List.mem_filterMap]
  constructor
  · rintro ⟨o, ho, hot⟩
    subst hot
    have ho' : some t = candidate bp s bp.geode ∨ some t = candidate bp s bp.obsidian ∨
        some t = candidate bp s bp.clay ∨ some t = candidate bp s bp.ore := by
      simpa using ho
    rcases ho' with h | h | h | h
    · exact Or.inl h.symm
    · exact Or.inr (Or.inl h.symm)
    · exact Or.inr (Or.inr (Or.inl h.symm))
    · exact Or.inr (Or.inr (Or.inr h.symm))
  · intro h
    rcases h with h | h | h | h <;> exact ⟨some t, by simp [h], rfl⟩

theorem candidate_next_state (bp : Blueprint) (s : State) (r : RobotRecipe) (t : State)
    (h : candidate bp s r = some t) : s.next_state_with r = some t := by
  unfold candidate at h
  by_cases hg : r.produces = .Geode
  · rwa [if_pos hg] at h
  · rw [if_neg hg] at h
    cases hb : bp.biggest_consumer r.produces with
    | none => rw [hb] at h; cases h
    | some b =>
      rw [hb] at h
      simp only at h
      by_cases hp : s.time_left * b > s.get_resource r.produces
      · rwa [if_pos hp] at h
      · rw [if_neg hp] at h; cases h

theorem next_state_with_built (s : State) (r : RobotRecipe) (t : State)
    (h : s.next_state_with r = some t) : t.built = some r.produces := by
  unfold State.next_state_with at h
  cases h1 : s.buildTimeLoop r.cost 0 with
  | none => rw [h1] at h; cases h
  | some T =>
    rw [h1] at h
    simp only at h
    cases h2 : s.step T with
    | none => rw [h2] at h; cases h
    | some st0 =>
      rw [h2] at h
      simp only at h
      by_cases hg : r.produces = .Geode
      · rw [if_pos hg] at h
        cases h
        rfl
      · rw [if_neg hg] at h
        cases h
        rfl

/-- C1 (amended): the successor generator always attempts the geode recipe,
and for each non-terminal recipe it skips the branch exactly when
`stock[kind] >= time_left * max_cost_of_kind` (no producer term). -/
theorem claim_C1_amended (bp : Blueprint) (s : State) (hok : BlueprintOk bp) :
    ∃ L, bp.next_states s = some L ∧
      (∀ t, s.next_state_with bp.geode = some t → t ∈ L) ∧
      (∀ r, (r = bp.obsidian ∨ r = bp.clay ∨ r = bp.ore) → ∀ b,
        bp.biggest_consumer r.produces = some b →
        ((s.time_left * b ≤ s.get_resource r.produces →
            ∀ t ∈ L, t.built ≠ some r.produces) ∧
         (s.get_resource r.produces < s.time_left * b →
            ∀ t, s.next_state_with r = some t → t ∈ L))) := by
  have htags := hok.1
  obtain ⟨hto, htc, htb, htg⟩ := htags
  refine ⟨(bp.next_states s).getD [], ?_, ?_, ?_⟩
  · rw [next_states_eq bp s hok]
    rfl
  · intro t ht
    rw [mem_next_states bp s t hok]
    refine Or.inl ?_
    unfold candidate
    rw [if_pos htg]
    exact ht
  · intro r hr b hb
    constructor
    · intro hskip t ht hbuilt
      rw [mem_next_states bp s t hok] at ht
      rcases hr with hr | hr | hr <;> subst hr
      · rcases ht with hc | hc | hc | hc
        · have hb' := next_state_with_built _ _ _ (candidate_next_state _ _ _ _ hc)
          rw [htg] at hb'
          rw [htb, hb'] at hbuilt
          exact absurd hbuilt (by decide)
        · have hnone : candidate bp s bp.obsidian = none := by
            unfold candidate
            rw [if_neg (by rw [htb]; simp)]
            simp only [hb]
            rw [if_neg (by omega)]
          rw [hnone] at hc
          cases hc
        · have hb' := next_state_with_built _ _ _ (candidate_next_state _ _ _ _ hc)
          rw [htc] at hb'
          rw [htb, hb'] at hbuilt
          exact absurd hbuilt (by decide)
        · have hb' := next_state_with_built _ _ _ (candidate_next_state _ _ _ _ hc)
          rw [hto] at hb'
          rw [htb, hb'] at hbuilt
          exact absurd hbuilt (by decide)
      · rcases ht with hc | hc | hc | hc
        · have hb' := next_state_with_built _ _ _ (candidate_next_state _ _ _ _ hc)
          rw [htg] at hb'
          rw [htc, hb'] at hbuilt
          exact absurd hbuilt (by decide)
        · have hb' := next_state_with_built _ _ _ (candidate_next_state _ _ _ _ hc)
          rw [htb] at hb'
          rw [htc, hb'] at hbuilt
          exact absurd hbuilt (by decide)
        · have hnone : candidate bp s bp.clay = none := by
            unfold candidate
            rw [if_neg (by rw [htc]; simp)]
            simp only [hb]
            rw [if_neg (by omega)]
          rw [hnone] at hc
          cases hc
        · have hb' := next_state_with_built _ _ _ (candidate_next_state _ _ _ _ hc)
          rw [hto] at hb'
          rw [htc, hb'] at hbuilt
          exact absurd hbuilt (by decide)
      · rcases ht with hc | hc | hc | hc
        · have hb' := next_state_with_built _ _ _ (candidate_next_state _ _ _ _ hc)
          rw [htg] at hb'
          rw [hto, hb'] at hbuilt
          exact absurd hbuilt (by decide)
        · have hb' := next_state_with_built _ _ _ (candidate_next_state _ _ _ _ hc)
          rw [htb] at hb'
          rw [hto, hb'] at hbuilt
          exact absurd hbuilt (by decide)
        · have hb' := next_state_with_built _ _ _ (candidate_next_state _ _ _ _ hc)
          rw [htc] at hb'
          rw [hto, hb'] at hbuilt
          exact absurd hbuilt (by decide)
        · have hnone : candidate bp s bp.ore = none := by
            unfold candidate
            rw [if_neg (by rw [hto]; simp)]
            simp only [hb]
            rw [if_neg (by omega)]
          rw [hnone] at hc
          cases hc
    · intro hexp t hnext
      rw [mem_next_states bp s t hok]
      have hcand : candidate bp s r = some t := by
        unfold candidate
        have hne : ¬ r.produces = .Geode := by
          rcases hr with hr | hr | hr <;> subst hr <;>
            simp [htb, htc, hto]
        rw [if_neg hne]
        simp only [hb]
        rw [if_pos (by omega)]
        exact hnext
      rcases hr with hr | hr | hr <;> subst hr
      · exact Or.inr (Or.inl hcand)
      · exact Or.inr (Or.inr (Or.inl hcand))
      · exact Or.inr (Or.inr (Or.inr hcand))

/-- The ledger on which the claimed prune condition and the code's prune
condition disagree: 4 ore producers, no ore stock, 4 ticks left. -/
def cexState : State :=
  { time := 20, max_time := 24, ore := 0, clay := 0, obsidian := 0,
    geodes := 0, final_geodes := 0, ore_robots := 4, clay_robots := 0,
    obsidian_robots := 0, geode_robots := 0, built := none }

/-- C1 as stated is false: on `cexState` with scenario A,
`stock[ore] + producers[ore]*(deadline-tick) = 16 >= (deadline-tick)*max_cost = 16`,
so the claim says the ore branch is skipped, yet the generator still
produces an ore-building successor. -/
theorem claim_C1_counterexample :
    bpA.biggest_consumer .Ore = some 4 ∧
    cexState.time_left * 4 ≤
      cexState.get_resource .Ore + cexState.get_robots .Ore * cexState.time_left ∧
    ∃ t ∈ (bpA.next_states cexState).getD [], t.built = some Resource.Ore := by
  refine ⟨by decide, by decide, ?_⟩
  decide

theorem claim_C1_witness :
    BlueprintOk bpA ∧
    (∃ L, bpA.next_states cexState = some L ∧
      (∀ t, cexState.next_state_with bpA.geode = some t → t ∈ L) ∧
      (∀ r, (r = bpA.obsidian ∨ r = bpA.clay ∨ r = bpA.ore) → ∀ b,
        bpA.biggest_consumer r.produces = some b →
        ((cexState.time_left * b ≤ cexState.get_resource r.produces →
            ∀ t ∈ L, t.built ≠ some r.produces) ∧
         (cexState.get_resource r.produces < cexState.time_left * b →
            ∀ t, cexState.next_state_with r = some t → t ∈ L)))) :=
  ⟨by decide, claim_C1_amended bpA cexState (by decide)⟩

/-! ## Bridging the queue search to the recursive tree maximum -/

def ofinal : Option State → Option Int := Option.map State.final_geodes

def omax (o : Option Int) (v : Int) : Option Int :=
  some (match o with
  | none => v
  | some x => max x v)

def foldOmax (l : List Int) (a : Option Int) : Option Int := l.foldl omax a

theorem updateBest_final (best : Option State) (s : State) :
    ofinal (updateBest best s) = omax (ofinal best) s.final_geodes := by
  cases best with
  | none => rfl
  | some b =>
    unfold updateBest ofinal omax
    simp only
    by_cases h : b.final_geodes < s.final_geodes
    · rw [if_pos h]
      simp
      omega
    · rw [if_neg h]
      simp
      omega

theorem omax_comm_assoc (a : Option Int) (v w : Int) :
    omax (omax a v) w = omax (omax a w) v := by
  cases a <;> simp [omax] <;> omega

theorem omax_absorb (a : Option Int) (v w : Int) :
    omax (omax a v) w = omax a (max v w) := by
  cases a <;> simp [omax] <;> omega

theorem foldOmax_omax (l : List Int) (a : Option Int) (v : Int) :
    foldOmax l (omax a v) = omax (foldOmax l a) v := by
  induction l generalizing a with
  | nil => rfl
  | cons x xs ih =>
    show foldOmax xs (omax (omax a v) x) = _
    rw [omax_comm_assoc, ih]
    rfl

theorem foldOmax_append (l1 l2 : List Int) (a : Option Int) :
    foldOmax (l1 ++ l2) a = foldOmax l2 (foldOmax l1 a) :=
  List.foldl_append omax a l1 l2

theorem foldOmax_swap (l1 l2 : List Int) (a : Option Int) :
    foldOmax l1 (foldOmax l2 a) = foldOmax l2 (foldOmax l1 a) := by
  induction l2 generalizing a with
  | nil => rfl
  | cons x xs ih =>
    show foldOmax l1 (foldOmax xs (omax a x)) = foldOmax xs (omax (foldOmax l1 a) x)
    rw [ih, foldOmax_omax]

theorem foldOmax_of_foldl_max (l : List Int) (a : Option Int) (v : Int) :
    foldOmax l (omax a v) = omax a (l.foldl max v) := by
  induction l generalizing v with
  | nil => rfl
  | cons x xs ih =>
    show foldOmax xs (omax (omax a v) x) = omax a (xs.foldl max (max v x))
    rw [omax_absorb, ih]

theorem next_some_bounds (s : State) (r : RobotRecipe) (t : State)
    (hne : r.cost ≠ []) (hrob : ∀ k, 0 ≤ s.get_robots k)
    (h : s.next_state_with r = some t) :
    s.time < t.time ∧ t.time ≤ s.max_time ∧ t.max_time = s.max_time ∧
      (∀ k, 0 ≤ t.get_robots k) := by
  by_cases hz : ∀ p ∈ r.cost, s.get_robots p.1 ≠ 0
  · have hpos : ∀ p ∈ r.cost, 0 < s.get_robots p.1 := fun p hp => by
      have h1 := hz p hp
      have h2 := hrob p.1
      omega
    rw [next_state_with_eq s r hz] at h
    by_cases hd : s.max_time < s.time + ttbMax s r.cost
    · rw [if_pos hd] at h
      cases h
    · rw [if_neg hd] at h
      cases h
      have hpos1 := ttbMax_pos s r.cost hne hpos
      refine ⟨?_, ?_, ?_, ?_⟩
      · rw [buildResult_time]; omega
      · rw [buildResult_time]; omega
      · rw [buildResult_max_time]
      · intro k
        rw [buildResult_robots]
        have := hrob k
        by_cases hk : r.produces = k <;> simp [hk] <;> omega
  · push_neg at hz
    obtain ⟨p, hp, hp0⟩ := hz
    rw [next_state_with_none_of_zero s r ⟨p, hp, hp0⟩] at h
    cases h

theorem mem_next_states_recipe (bp : Blueprint) (s : State) (t : State)
    (hok : BlueprintOk bp) (ht : t ∈ (bp.next_states s).getD []) :
    ∃ r, (r = bp.geode ∨ r = bp.obsidian ∨ r = bp.clay ∨ r = bp.ore) ∧
      s.next_state_with r = some t := by
  rw [mem_next_states bp s t hok] at ht
  rcases ht with h | h | h | h
  · exact ⟨bp.geode, Or.inl rfl, candidate_next_state _ _ _ _ h⟩
  · exact ⟨bp.obsidian, Or.inr (Or.inl rfl), candidate_next_state _ _ _ _ h⟩
  · exact ⟨bp.clay, Or.inr (Or.inr (Or.inl rfl)), candidate_next_state _ _ _ _ h⟩
  · exact ⟨bp.ore, Or.inr (Or.inr (Or.inr rfl)), candidate_next_state _ _ _ _ h⟩

/-- Every generated successor is a well-formed ledger strictly later in
time with the same deadline. -/
theorem nextStates_sound (bp : Blueprint) (s : State) (hok : BlueprintOk bp)
    (hs : StateOk s) :
    ∀ t ∈ (bp.next_states s).getD [],
      StateOk t ∧ s.time < t.time ∧ t.max_time = s.max_time := by
  intro t ht
  obtain ⟨r, hr, hnext⟩ := mem_next_states_recipe bp s t hok ht
  have hrob : ∀ k, 0 ≤ s.get_robots k := by
    intro k
    cases k
    · exact hs.1
    · exact hs.2.1
    · exact hs.2.2.1
    · exact hs.2.2.2.1
  obtain ⟨-, hne_o, hne_c, hne_b, hne_g, -, -, -⟩ := hok
  have hne : r.cost ≠ [] := by
    rcases hr with hr | hr | hr | hr <;> subst hr <;> assumption
  obtain ⟨h1, h2, h3, h4⟩ := next_some_bounds s r t hne hrob hnext
  refine ⟨⟨h4 .Ore, h4 .Clay, h4 .Obsidian, h4 .Geode, ?_⟩, h1, h3⟩
  omega

theorem nextStates_len (bp : Blueprint) (s : State) (hok : BlueprintOk bp) :
    ((bp.next_states s).getD []).length ≤ 4 := by
  rw [next_states_eq bp s hok]
  exact List.length_filterMap_le _ _

theorem stableFuel_pos (s : State) (hs : StateOk s) : 1 ≤ stableFuel s := by
  obtain ⟨-, -, -, -, h⟩ := hs
  unfold stableFuel
  omega

theorem stableFuel_succ_le (s t : State) (h1 : s.time < t.time)
    (h2 : t.max_time = s.max_time) (h3 : t.time ≤ t.max_time) :
    stableFuel t + 1 ≤ stableFuel s := by
  unfold stableFuel
  rw [h2]
  rw [h2] at h3
  omega

theorem queueMeasure_cons (s : State) (q : List State) :
    queueMeasure (s :: q) = 5 ^ stableFuel s + queueMeasure q := rfl

theorem queueMeasure_append (q1 q2 : List State) :
    queueMeasure (q1 ++ q2) = queueMeasure q1 + queueMeasure q2 := by
  unfold queueMeasure
  rw [List.map_append, List.sum_append]

theorem sum_le_len_mul (l : List Nat) (c : Nat) (h : ∀ x ∈ l, x ≤ c) :
    l.sum ≤ l.length * c := by
  induction l with
  | nil => simp
  | cons x xs ih =>
    have hx := h x (List.mem_cons_self x xs)
    have hxs := ih (fun y hy => h y (List.mem_cons_of_mem x hy))
    simp only [List.sum_cons, List.length_cons]
    calc x + xs.sum ≤ c + xs.length * c := by omega
      _ = (xs.length + 1) * c := by ring

theorem queueMeasure_succs (bp : Blueprint) (s : State) (hok : BlueprintOk bp)
    (hs : StateOk s) :
    queueMeasure ((bp.next_states s).getD []) + 1 ≤ 5 ^ stableFuel s := by
  obtain ⟨k, hk⟩ : ∃ k, stableFuel s = k + 1 := by
    have := stableFuel_pos s hs
    exact ⟨stableFuel s - 1, by omega⟩
  have hlen := nextStates_len bp s hok
  have hbound : ∀ x ∈ ((bp.next_states s).getD []).map (fun t => 5 ^ stableFuel t),
      x ≤ 5 ^ k := by
    intro x hx
    rw [List.mem_map] at hx
    obtain ⟨t, ht, hxt⟩ := hx
    obtain ⟨htok, h1, h2⟩ := (nextStates_sound bp s hok hs) t ht
    have h3 : t.time ≤ t.max_time := htok.2.2.2.2
    have hle := stableFuel_succ_le s t h1 h2 h3
    subst hxt
    exact Nat.pow_le_pow_right (by omega) (by omega)
  have hsum : queueMeasure ((bp.next_states s).getD []) ≤
      ((bp.next_states s).getD []).length * 5 ^ k := by
    have h0 := sum_le_len_mul
      (((bp.next_states s).getD []).map (fun t => 5 ^ stableFuel t)) (5 ^ k) hbound
    rwa [List.length_map] at h0
  have h5 : (1 : Nat) ≤ 5 ^ k := Nat.one_le_pow k 5 (by omega)
  have hmul : ((bp.next_states s).getD []).length * 5 ^ k ≤ 4 * 5 ^ k :=
    Nat.mul_le_mul_right _ hlen
  rw [hk, pow_succ]
  omega

theorem bestFG_stable (bp : Blueprint) (hok : BlueprintOk bp) :
    ∀ f s, StateOk s → stableFuel s ≤ f → bp.bestFG f s = bp.bestFGs s := by
  intro f
  induction f using Nat.strong_induction_on with
  | _ f ih =>
    intro s hs hf
    obtain ⟨k, hk⟩ : ∃ k, stableFuel s = k + 1 := by
      have := stableFuel_pos s hs
      exact ⟨stableFuel s - 1, by omega⟩
    obtain ⟨g, hg⟩ : ∃ g, f = g + 1 := ⟨f - 1, by omega⟩
    subst hg
    unfold Blueprint.bestFGs
    rw [hk]
    show ((bp.next_states s).getD []).foldl (fun acc t => max acc (bp.bestFG g t))
        s.final_geodes =
      ((bp.next_states s).getD []).foldl (fun acc t => max acc (bp.bestFG k t))
        s.final_geodes
    apply List.foldl_ext
    intro a t ht
    obtain ⟨htok, h1, h2⟩ := (nextStates_sound bp s hok hs) t ht
    have h3 : t.time ≤ t.max_time := htok.2.2.2.2
    have hle := stableFuel_succ_le s t h1 h2 h3
    have e1 : bp.bestFG g t = bp.bestFGs t := ih g (by omega) t htok (by omega)
    have e2 : bp.bestFG k t = bp.bestFGs t := ih k (by omega) t htok (by omega)
    rw [e1, e2]

/-- The per-state recursion equation of the tree maximum. -/
theorem bestFGs_eq (bp : Blueprint) (s : State) (hok : BlueprintOk bp)
    (hs : StateOk s) :
    bp.bestFGs s = (((bp.next_states s).getD []).map bp.bestFGs).foldl max
      s.final_geodes := by
  obtain ⟨k, hk⟩ : ∃ k, stableFuel s = k + 1 := by
    have := stableFuel_pos s hs
    exact ⟨stableFuel s - 1, by omega⟩
  unfold Blueprint.bestFGs
  rw [hk]
  show ((bp.next_states s).getD []).foldl (fun acc t => max acc (bp.bestFG k t))
      s.final_geodes = _
  rw [List.foldl_map]
  apply List.foldl_ext
  intro a t ht
  obtain ⟨htok, h1, h2⟩ := (nextStates_sound bp s hok hs) t ht
  have h3 : t.time ≤ t.max_time := htok.2.2.2.2
  have hle := stableFuel_succ_le s t h1 h2 h3
  rw [bestFG_stable bp hok k t htok (by omega)]
  rfl

theorem queueMeasure_pos (q : List State) (h : q ≠ []) : 1 ≤ queueMeasure q := by
  cases q with
  | nil => exact absurd rfl h
  | cons s rest =>
    rw [queueMeasure_cons]
    have : (1 : Nat) ≤ 5 ^ stableFuel s := Nat.one_le_pow _ 5 (by omega)
    omega

theorem expand_alg (bp : Blueprint) (hok : BlueprintOk bp) (qrest : List State)
    (a : Option Int) (s : State) (hs : StateOk s) :
    foldOmax ((qrest ++ (bp.next_states s).getD []).map bp.bestFGs)
        (omax a s.final_geodes)
      = foldOmax (qrest.map bp.bestFGs) (omax a (bp.bestFGs s)) := by
  rw [List.map_append, foldOmax_append, foldOmax_swap, foldOmax_of_foldl_max,
    ← bestFGs_eq bp s hok hs]

theorem measure_expand (bp : Blueprint) (hok : BlueprintOk bp) (s : State)
    (hs : StateOk s) (qrest : List State) (f : Nat)
    (hm : queueMeasure (s :: qrest) ≤ f + 1) :
    queueMeasure (qrest ++ (bp.next_states s).getD []) ≤ f := by
  rw [queueMeasure_append]
  have h1 := queueMeasure_succs bp s hok hs
  rw [queueMeasure_cons] at hm
  omega

theorem stateOk_expand (bp : Blueprint) (hok : BlueprintOk bp) (s : State)
    (hs : StateOk s) (qrest : List State) (hq : ∀ x ∈ s :: qrest, StateOk x) :
    ∀ x ∈ qrest ++ (bp.next_states s).getD [], StateOk x := by
  intro x hx
  rcases List.mem_append.mp hx with h | h
  · exact hq x (List.mem_cons_of_mem s h)
  · exact ((nextStates_sound bp s hok hs) x h).1

/-- The queue loop of `find_best_outcome` terminates within the measure
fuel and its best state carries the tree maximum of `final_geodes` over
the queue, folded onto the incoming best. -/
theorem searchLoop_spec (bp : Blueprint) (hok : BlueprintOk bp) :
    ∀ fuel front back best,
      (∀ s ∈ front ++ back.reverse, StateOk s) →
      queueMeasure (front ++ back.reverse) ≤ fuel →
      ∃ r, bp.searchLoop fuel front back best = some r ∧
        ofinal r = foldOmax ((front ++ back.reverse).map bp.bestFGs) (ofinal best) := by
  intro fuel
  induction fuel with
  | zero =>
    intro front back best hq hm
    cases front with
    | nil =>
      cases back with
      | nil => exact ⟨best, rfl, rfl⟩
      | cons b bs =>
        exfalso
        have : ([] : List State) ++ (b :: bs).reverse ≠ [] := by simp
        have := queueMeasure_pos _ this
        omega
    | cons s front' =>
      exfalso
      have : (s :: front') ++ back.reverse ≠ [] := by simp
      have := queueMeasure_pos _ this
      omega
  | succ f ih =>
    intro front back best hq hm
    cases front with
    | nil =>
      cases back with
      | nil => exact ⟨best, rfl, rfl⟩
      | cons b bs =>
        obtain ⟨s, front', hrev⟩ : ∃ s front', (b :: bs).reverse = s :: front' := by
          cases hr : (b :: bs).reverse with
          | nil => exact absurd (List.reverse_eq_nil_iff.mp hr) (by simp)
          | cons x xs => exact ⟨x, xs, rfl⟩
        have hq' : ∀ x ∈ s :: front', StateOk x := by
          intro x hx
          apply hq
          rw [List.nil_append, hrev]
          exact hx
        have hm' : queueMeasure (s :: front') ≤ f + 1 := by
          rw [← hrev]
          simpa using hm
        have hs : StateOk s := hq' s (List.mem_cons_self s front')
        have heq : bp.searchLoop (f+1) [] (b :: bs) best =
            match bp.next_states s with
            | none => none
            | some succs => bp.searchLoop f front' succs.reverse (updateBest best s) := by
          show (match (b :: bs).reverse with
            | [] => some best
            | s :: front =>
              match bp.next_states s with
              | none => none
              | some succs => bp.searchLoop f front succs.reverse (updateBest best s)) = _
          rw [hrev]
        rw [heq, next_states_eq bp s hok]
        have hback : (((([candidate bp s bp.geode, candidate bp s bp.obsidian,
            candidate bp s bp.clay, candidate bp s bp.ore]).filterMap
              (fun o => o)).reverse).reverse)
            = (bp.next_states s).getD [] := by
          rw [List.reverse_reverse, next_states_eq bp s hok]
          rfl
        obtain ⟨r, hr, hofinal⟩ := ih front'
          (([candidate bp s bp.geode, candidate bp s bp.obsidian,
            candidate bp s bp.clay, candidate bp s bp.ore]).filterMap (fun o => o)).reverse
          (updateBest best s)
          (by rw [hback]; exact stateOk_expand bp hok s hs front' hq')
          (by rw [hback]; exact measure_expand bp hok s hs front' f hm')
        refine ⟨r, hr, ?_⟩
        rw [hofinal, hback, updateBest_final, expand_alg bp hok front' _ s hs,
          List.nil_append, hrev, List.map_cons]
        rfl
    | cons s front' =>
      have hs : StateOk s := hq s (List.mem_cons_self s _)
      have hq2 : ∀ x ∈ s :: (front' ++ back.reverse), StateOk x := by
        intro x hx
        apply hq
        simpa using hx
      have hm2 : queueMeasure (s :: (front' ++ back.reverse)) ≤ f + 1 := by
        simpa [queueMeasure_cons, queueMeasure_append] using hm
      have heq : bp.searchLoop (f+1) (s :: front') back best =
          match bp.next_states s with
          | none => none
          | some succs =>
            bp.searchLoop f front' (List.reverseAux succs back) (updateBest best s) := rfl
      rw [heq, next_states_eq bp s hok]
      have hback : (List.reverseAux (([candidate bp s bp.geode, candidate bp s bp.obsidian,
          candidate bp s bp.clay, candidate bp s bp.ore]).filterMap (fun o => o))
            back).reverse
          = back.reverse ++ (bp.next_states s).getD [] := by
        rw [List.reverseAux_eq, List.reverse_append, List.reverse_reverse,
          next_states_eq bp s hok]
        rfl
      obtain ⟨r, hr, hofinal⟩ := ih front'
        (List.reverseAux (([candidate bp s bp.geode, candidate bp s bp.obsidian,
          candidate bp s bp.clay, candidate bp s bp.ore]).filterMap (fun o => o)) back)
        (updateBest best s)
        (by
          rw [hback, ← List.append_assoc]
          intro x hx
          rcases List.mem_append.mp hx with h | h
          · exact hq2 x (List.mem_cons_of_mem s (by simpa using h))
          · exact ((nextStates_sound bp s hok hs) x h).1)
        (by
          rw [hback, ← List.append_assoc]
          exact measure_expand bp hok s hs (front' ++ back.reverse) f hm2)
      refine ⟨r, hr, ?_⟩
      rw [hofinal, hback, ← List.append_assoc, updateBest_final,
        expand_alg bp hok (front' ++ back.reverse) _ s hs, List.cons_append,
        List.map_cons]
      rfl

/-- `find_best_outcome` on a well-formed blueprint and ledger: no panic,
no divergence, and the winner's `final_geodes` is the tree maximum. -/
theorem find_best_outcome_spec (bp : Blueprint) (hok : BlueprintOk bp)
    (s : State) (hs : StateOk s) :
    ∃ r, bp.find_best_outcome s = some (some r) ∧ r.final_geodes = bp.bestFGs s := by
  obtain ⟨r, hr, hofinal⟩ := searchLoop_spec bp hok (5 ^ stableFuel s) [s] [] none
    (by
      intro x hx
      have : x = s := by simpa using hx
      rw [this]
      exact hs)
    (by
      show queueMeasure [s] ≤ 5 ^ stableFuel s
      rw [show queueMeasure [s] = 5 ^ stableFuel s + 0 from rfl]
      omega)
  have hval : ofinal r = some (bp.bestFGs s) := by
    rw [hofinal]
    rfl
  cases r with
  | none => cases hval
  | some st =>
    refine ⟨st, hr, ?_⟩
    have : some st.final_geodes = some (bp.bestFGs s) := hval
    exact Option.some.inj this

/-! ## Claims C10, C8, C2 -/

/-- Positive cost quantities in all four recipes. -/
def PositiveCosts (bp : Blueprint) : Prop :=
  (∀ p ∈ bp.ore.cost, 1 ≤ p.2) ∧ (∀ p ∈ bp.clay.cost, 1 ≤ p.2) ∧
  (∀ p ∈ bp.obsidian.cost, 1 ≤ p.2) ∧ (∀ p ∈ bp.geode.cost, 1 ≤ p.2)

instance (bp : Blueprint) : Decidable (PositiveCosts bp) := by
  unfold PositiveCosts
  infer_instance

/-- C10 (amended): with non-empty positive-cost recipes AND a consumer for
every non-terminal kind, the frontier search from any ledger with
non-negative producers and tick within the deadline returns a result. -/
theorem claim_C10_amended (bp : Blueprint) (hok : BlueprintOk bp)
    (hpos : PositiveCosts bp) (s : State) (hs : StateOk s) :
    ∃ r, bp.find_best_outcome s = some (some r) := by
  obtain ⟨r, hr, -⟩ := find_best_outcome_spec bp hok s hs
  exact ⟨r, hr⟩

theorem claim_C10_witness :
    BlueprintOk bpA ∧ PositiveCosts bpA ∧ StateOk State.default ∧
    ∃ r, bpA.find_best_outcome State.default = some (some r) :=
  ⟨by decide, by decide, by decide,
    claim_C10_amended bpA (by decide) (by decide) State.default (by decide)⟩

/-- A blueprint satisfying everything claim C10 asks (non-empty cost lists,
positive quantities) whose evaluation nevertheless panics: no recipe
consumes clay or obsidian, so `max().unwrap()` fails. -/
def bpC10 : Blueprint :=
  { id := 3,
    ore := { produces := .Ore, cost := [(.Ore, 1)] },
    clay := { produces := .Clay, cost := [(.Ore, 1)] },
    obsidian := { produces := .Obsidian, cost := [(.Ore, 1)] },
    geode := { produces := .Geode, cost := [(.Ore, 1)] } }

/-- C10 as stated is false: `bpC10` has non-empty positive cost lists and
the start tick is within the deadline, yet the search hits the
`unwrap()` panic (the outer `none`) instead of returning a state. -/
theorem claim_C10_counterexample :
    bpC10.ore.cost ≠ [] ∧ bpC10.clay.cost ≠ [] ∧ bpC10.obsidian.cost ≠ [] ∧
    bpC10.geode.cost ≠ [] ∧ PositiveCosts bpC10 ∧ StateOk State.default ∧
    bpC10.find_best_outcome State.default = none := by
  refine ⟨by decide, by decide, by decide, by decide, by decide, by decide, ?_⟩
  decide

theorem next_state_with_final_eq (s : State) (r : RobotRecipe) (t : State)
    (hg : r.produces ≠ .Geode) (h : s.next_state_with r = some t) :
    t.final_geodes = s.final_geodes := by
  unfold State.next_state_with at h
  cases h1 : s.buildTimeLoop r.cost 0 with
  | none => rw [h1] at h; cases h
  | some T =>
    rw [h1] at h
    simp only at h
    cases h2 : s.step T with
    | none => rw [h2] at h; cases h
    | some st0 =>
      rw [h2] at h
      simp only at h
      rw [if_neg hg] at h
      cases h
      have hst0 : st0.final_geodes = s.final_geodes := by
        rw [step_eq] at h2
        by_cases hd : s.max_time < s.time + T
        · rw [if_pos hd] at h2; cases h2
        · rw [if_neg hd] at h2
          cases h2
          rfl
      show ((st0.applyCosts r.cost).add_robot r.produces).final_geodes = s.final_geodes
      rw [(add_robot_fields _ _).2.2.1, (applyCosts_fields _ _).2.2.1, hst0]

theorem self_mem_treeList (bp : Blueprint) (f : Nat) (s : State) :
    s ∈ bp.treeList f s := by
  cases f with
  | zero => exact List.mem_singleton.mpr rfl
  | succ g => exact List.mem_cons_self s _

theorem foldl_max_const {α : Type} (g : α → Int) (l : List α) (c : Int)
    (h : ∀ x ∈ l, g x = c) : l.foldl (fun a x => max a (g x)) c = c := by
  induction l with
  | nil => rfl
  | cons x xs ih =>
    have hx := h x (List.mem_cons_self x xs)
    show xs.foldl (fun a x => max a (g x)) (max c (g x)) = c
    rw [hx, max_self]
    exact ih (fun y hy => h y (List.mem_cons_of_mem x hy))

/-- If no state of the (fuel-indexed) search tree ever records a geode
build, the tree maximum of `final_geodes` is the root's value. -/
theorem bestFG_tree_const (bp : Blueprint) (hok : BlueprintOk bp) :
    ∀ f s, (∀ t ∈ bp.treeList f s, t.built ≠ some Resource.Geode) →
      bp.bestFG f s = s.final_geodes := by
  intro f
  induction f with
  | zero => intro s _; rfl
  | succ g ih =>
    intro s hgeo
    show ((bp.next_states s).getD []).foldl (fun acc t => max acc (bp.bestFG g t))
        s.final_geodes = s.final_geodes
    apply foldl_max_const
    intro t ht
    have hmemt : ∀ u ∈ bp.treeList g t, u ∈ bp.treeList (g+1) s := by
      intro u hu
      show u ∈ s :: ((bp.next_states s).getD []).flatMap (bp.treeList g)
      exact List.mem_cons_of_mem s (List.mem_flatMap.mpr ⟨t, ht, hu⟩)
    have htt : t.built ≠ some Resource.Geode :=
      hgeo t (hmemt t (self_mem_treeList bp g t))
    have hfin : t.final_geodes = s.final_geodes := by
      obtain ⟨r, -, hnext⟩ := mem_next_states_recipe bp s t hok ht
      have hb := next_state_with_built s r t hnext
      have hrg : r.produces ≠ .Geode := by
        intro hg
        rw [hg] at hb
        exact htt hb
      exact next_state_with_final_eq s r t hrg hnext
    rw [ih t (fun u hu => hgeo u (hmemt u hu)), hfin]

/-- C8: a well-formed blueprint whose geode recipe is never built anywhere
in the search tree from the canonical start yields exactly 0. -/
theorem claim_C8 (bp : Blueprint) (hok : BlueprintOk bp)
    (hgeo : ∀ t ∈ bp.treeList (stableFuel State.default) State.default,
      t.built ≠ some Resource.Geode) :
    ∃ r, bp.find_best_outcome State.default = some (some r) ∧ r.final_geodes = 0 := by
  obtain ⟨r, hr, hval⟩ := find_best_outcome_spec bp hok State.default (by decide)
  refine ⟨r, hr, ?_⟩
  rw [hval]
  exact bestFG_tree_const bp hok (stableFuel State.default) State.default hgeo

/-- A blueprint whose geode recipe is unreachable in the horizon: every
recipe needs 50 ore, unaffordable by tick 24. -/
def bpC8 : Blueprint :=
  { id := 5,
    ore := { produces := .Ore, cost := [(.Ore, 50)] },
    clay := { produces := .Clay, cost := [(.Ore, 50)] },
    obsidian := { produces := .Obsidian, cost := [(.Ore, 50), (.Clay, 14)] },
    geode := { produces := .Geode, cost := [(.Ore, 50), (.Obsidian, 7)] } }

theorem claim_C8_witness :
    BlueprintOk bpC8 ∧
    (∀ t ∈ bpC8.treeList (stableFuel State.default) State.default,
      t.built ≠ some Resource.Geode) ∧
    ∃ r, bpC8.find_best_outcome State.default = some (some r) ∧ r.final_geodes = 0 :=
  ⟨by decide, by decide, claim_C8 bpC8 (by decide) (by decide)⟩

/-- The canonical initial ledger as the code actually has it: one ore
producer and one unit of ore stock (the amendment to claim C2). -/
def canonicalInitAmended : State :=
  { time := 1, max_time := MAX_TIME, ore := 1, clay := 0, obsidian := 0,
    geodes := 0, final_geodes := 0, ore_robots := 1, clay_robots := 0,
    obsidian_robots := 0, geode_robots := 0, built := none }

/-- C2 (amended): the quantity multiplied by `id` in
`calculate_quality_level` is the search result from the canonical initial
ledger with one ore producer and one unit of ore stock at tick 1. -/
theorem claim_C2_amended (bp : Blueprint) :
    bp.best_final =
      (match bp.find_best_outcome canonicalInitAmended with
       | some (some st) => some st.final_geodes
       | _ => none) ∧
    bp.calculate_quality_level = bp.best_final.map (fun y => bp.id * y) :=
  ⟨rfl, rfl⟩

/-- A blueprint separating the code's initial ledger (one ore in stock)
from the claim's zero-stock ledger: the geode robot costs 22 ore, which
the extra initial ore makes affordable one tick sooner. -/
def bpC2 : Blueprint :=
  { id := 7,
    ore := { produces := .Ore, cost := [(.Ore, 100), (.Obsidian, 1)] },
    clay := { produces := .Clay, cost := [(.Ore, 100)] },
    obsidian := { produces := .Obsidian, cost := [(.Ore, 100), (.Clay, 1)] },
    geode := { produces := .Geode, cost := [(.Ore, 22)] } }

/-- C2 as stated is false: on `bpC2` the code's `best_final` is 1, while
the Search Controller result from the claim's zero-stock canonical ledger
is 0. -/
theorem claim_C2_counterexample :
    bpC2.best_final = some 1 ∧
    (match bpC2.find_best_outcome canonicalInitClaim with
     | some (some st) => some st.final_geodes
     | _ => none) = some 0 ∧
    (some (1 : Int) ≠ some (0 : Int)) := by
  refine ⟨?_, ?_, by decide⟩ <;> decide

/-! ## Claim C9: deadline monotonicity -/

/-- Two ledgers equal except that the second has a later deadline and at
least the first's banked terminal yield. -/
def DlRel (s1 s2 : State) : Prop :=
  s1.time = s2.time ∧ s1.ore = s2.ore ∧ s1.clay = s2.clay ∧
  s1.obsidian = s2.obsidian ∧ s1.geodes = s2.geodes ∧
  s1.ore_robots = s2.ore_robots ∧ s1.clay_robots = s2.clay_robots ∧
  s1.obsidian_robots = s2.obsidian_robots ∧ s1.geode_robots = s2.geode_robots ∧
  s1.final_geodes ≤ s2.final_geodes ∧ s1.max_time ≤ s2.max_time

theorem DlRel.res_eq {s1 s2 : State} (h : DlRel s1 s2) (k : Resource) :
    s1.get_resource k = s2.get_resource k := by
  cases k
  · exact h.2.1
  · exact h.2.2.1
  · exact h.2.2.2.1
  · exact h.2.2.2.2.1

theorem DlRel.rob_eq {s1 s2 : State} (h : DlRel s1 s2) (k : Resource) :
    s1.get_robots k = s2.get_robots k := by
  cases k
  · exact h.2.2.2.2.2.1
  · exact h.2.2.2.2.2.2.1
  · exact h.2.2.2.2.2.2.2.1
  · exact h.2.2.2.2.2.2.2.2.1

theorem maxOf_mem (l : List Int) (b : Int) (h : maxOf l = some b) : b ∈ l := by
  induction l generalizing b with
  | nil => cases h
  | cons x xs ih =>
    unfold maxOf at h
    cases hm : maxOf xs with
    | none =>
      rw [hm] at h
      cases h
      exact List.mem_cons_self x xs
    | some m =>
      rw [hm] at h
      cases h
      rcases max_choice x m with hc | hc
      · rw [hc]
        exact List.mem_cons_self x xs
      · rw [hc]
        exact List.mem_cons_of_mem x (ih m hm)

theorem biggest_consumer_pos (bp : Blueprint) (hpos : PositiveCosts bp)
    (k : Resource) (b : Int) (h : bp.biggest_consumer k = some b) : 1 ≤ b := by
  have hb := maxOf_mem _ _ h
  unfold Blueprint.consumers at hb
  rw [List.mem_filterMap] at hb
  obtain ⟨p, hp, hpk⟩ := hb
  have hp2 : p.2 = b := by
    by_cases hk : p.1 = k
    · rw [if_pos hk] at hpk
      exact Option.some.inj hpk
    · rw [if_neg hk] at hpk
      cases hpk
  rw [List.mem_flatMap] at hp
  obtain ⟨r, hr, hpr⟩ := hp
  obtain ⟨h1, h2, h3, h4⟩ := hpos
  rw [← hp2]
  unfold Blueprint.all_recipes at hr
  rcases List.mem_cons.mp hr with h | h
  · exact h4 p (h ▸ hpr)
  rcases List.mem_cons.mp h with h | h
  · exact h3 p (h ▸ hpr)
  rcases List.mem_cons.mp h with h | h
  · exact h2 p (h ▸ hpr)
  rcases List.mem_cons.mp h with h | h
  · exact h1 p (h ▸ hpr)
  · cases h

theorem ttbMax_congr (s1 s2 : State) (costs : List (Resource × Int))
    (hres : ∀ k, s1.get_resource k = s2.get_resource k)
    (hrob : ∀ k, s1.get_robots k = s2.get_robots k) :
    ttbMax s1 costs = ttbMax s2 costs := by
  unfold ttbMax
  apply List.foldl_ext
  intro a p _
  rw [hres p.1, hrob p.1]

theorem next_state_with_mono (s1 s2 : State) (r : RobotRecipe) (hrel : DlRel s1 s2)
    (t1 : State) (h : s1.next_state_with r = some t1) :
    ∃ t2, s2.next_state_with r = some t2 ∧ DlRel t1 t2 := by
  by_cases hz : ∀ p ∈ r.cost, s1.get_robots p.1 ≠ 0
  · have hz2 : ∀ p ∈ r.cost, s2.get_robots p.1 ≠ 0 := by
      intro p hp
      rw [← hrel.rob_eq p.1]
      exact hz p hp
    have hT : ttbMax s1 r.cost = ttbMax s2 r.cost :=
      ttbMax_congr s1 s2 r.cost hrel.res_eq hrel.rob_eq
    rw [next_state_with_eq s1 r hz] at h
    by_cases hd : s1.max_time < s1.time + ttbMax s1 r.cost
    · rw [if_pos hd] at h
      cases h
    · rw [if_neg hd] at h
      cases h
      have hd2 : ¬ s2.max_time < s2.time + ttbMax s2 r.cost := by
        have ht := hrel.1
        have hm := hrel.2.2.2.2.2.2.2.2.2.2
        rw [← hT, ← ht]
        omega
      refine ⟨buildResult s2 r (ttbMax s2 r.cost), ?_, ?_⟩
      · rw [next_state_with_eq s2 r hz2, if_neg hd2]
      · rw [← hT]
        set T := ttbMax s1 r.cost with hTdef
        obtain ⟨ht, ho, hc, hb, hg, hro, hrc, hrb, hrg, hf, hm⟩ := hrel
        refine ⟨?_, ?_, ?_, ?_, ?_, ?_, ?_, ?_, ?_, ?_, ?_⟩
        · show s1.time + T = s2.time + T
          omega
        · show s1.ore + s1.ore_robots * T - _ = s2.ore + s2.ore_robots * T - _
          rw [ho, hro]
        · show s1.clay + s1.clay_robots * T - _ = s2.clay + s2.clay_robots * T - _
          rw [hc, hrc]
        · show s1.obsidian + s1.obsidian_robots * T - _ =
            s2.obsidian + s2.obsidian_robots * T - _
          rw [hb, hrb]
        · show s1.geodes + s1.geode_robots * T - _ = s2.geodes + s2.geode_robots * T - _
          rw [hg, hrg]
        · show s1.ore_robots + _ = s2.ore_robots + _
          rw [hro]
        · show s1.clay_robots + _ = s2.clay_robots + _
          rw [hrc]
        · show s1.obsidian_robots + _ = s2.obsidian_robots + _
          rw [hrb]
        · show s1.geode_robots + _ = s2.geode_robots + _
          rw [hrg]
        · show s1.final_geodes + (if r.produces = .Geode then s1.max_time - (s1.time + T) else 0)
            ≤ s2.final_geodes + (if r.produces = .Geode then s2.max_time - (s2.time + T) else 0)
          by_cases hgg : r.produces = .Geode
          · rw [if_pos hgg, if_pos hgg, ← ht]
            omega
          · rw [if_neg hgg, if_neg hgg]
            omega
        · show s1.max_time ≤ s2.max_time
          exact hm
  · push_neg at hz
    obtain ⟨p, hp, hp0⟩ := hz
    rw [next_state_with_none_of_zero s1 r ⟨p, hp, hp0⟩] at h
    cases h

theorem candidate_mono (bp : Blueprint) (hpos : PositiveCosts bp) (s1 s2 : State)
    (r : RobotRecipe) (hrel : DlRel s1 s2) (t1 : State)
    (h : candidate bp s1 r = some t1) :
    ∃ t2, candidate bp s2 r = some t2 ∧ DlRel t1 t2 := by
  unfold candidate at h ⊢
  by_cases hg : r.produces = .Geode
  · rw [if_pos hg] at h ⊢
    exact next_state_with_mono s1 s2 r hrel t1 h
  · rw [if_neg hg] at h ⊢
    cases hb : bp.biggest_consumer r.produces with
    | none =>
      rw [hb] at h
      cases h
    | some b =>
      rw [hb] at h
      simp only at h ⊢
      by_cases hp1 : s1.time_left * b > s1.get_resource r.produces
      · rw [if_pos hp1] at h
        have hbpos := biggest_consumer_pos bp hpos r.produces b hb
        have hp2 : s2.time_left * b > s2.get_resource r.produces := by
          have h1 := hrel.res_eq r.produces
          have htl : s1.time_left ≤ s2.time_left := by
            unfold State.time_left
            have := hrel.1
            have := hrel.2.2.2.2.2.2.2.2.2.2
            omega
          have : s1.time_left * b ≤ s2.time_left * b :=
            mul_le_mul_of_nonneg_right htl (by omega)
          omega
        rw [if_pos hp2]
        exact next_state_with_mono s1 s2 r hrel t1 h
      · rw [if_neg hp1] at h
        cases h

theorem foldl_max_le {α : Type} (g : α → Int) (l : List α) (c X : Int)
    (hc : c ≤ X) (h : ∀ x ∈ l, g x ≤ X) :
    l.foldl (fun a x => max a (g x)) c ≤ X := by
  induction l generalizing c with
  | nil => exact hc
  | cons x xs ih =>
    have hx := h x (List.mem_cons_self x xs)
    exact ih _ (max_le hc hx) (fun y hy => h y (List.mem_cons_of_mem x hy))

theorem bestFG_mono (bp : Blueprint) (hok : BlueprintOk bp)
    (hpos : PositiveCosts bp) :
    ∀ f s1 s2, DlRel s1 s2 → bp.bestFG f s1 ≤ bp.bestFG f s2 := by
  intro f
  induction f with
  | zero =>
    intro s1 s2 hrel
    exact hrel.2.2.2.2.2.2.2.2.2.1
  | succ g ih =>
    intro s1 s2 hrel
    show ((bp.next_states s1).getD []).foldl (fun acc t => max acc (bp.bestFG g t))
        s1.final_geodes ≤
      ((bp.next_states s2).getD []).foldl (fun acc t => max acc (bp.bestFG g t))
        s2.final_geodes
    apply foldl_max_le
    · exact le_trans hrel.2.2.2.2.2.2.2.2.2.1
        (foldl_max_init_le (fun t => bp.bestFG g t) _ _)
    · intro t1 ht1
      rw [mem_next_states bp s1 t1 hok] at ht1
      have step : ∀ r, candidate bp s1 r = some t1 →
          (∀ t2, candidate bp s2 r = some t2 →
            t2 ∈ (bp.next_states s2).getD []) →
          bp.bestFG g t1 ≤ ((bp.next_states s2).getD []).foldl
            (fun acc t => max acc (bp.bestFG g t)) s2.final_geodes := by
        intro r hc hmem
        obtain ⟨t2, hc2, hrel2⟩ := candidate_mono bp hpos s1 s2 r hrel t1 hc
        exact le_trans (ih t1 t2 hrel2)
          (foldl_max_mem_le (fun t => bp.bestFG g t) _ _ t2 (hmem t2 hc2))
      rcases ht1 with hc | hc | hc | hc
      · exact step bp.geode hc (fun t2 hc2 =>
          (mem_next_states bp s2 t2 hok).mpr (Or.inl hc2))
      · exact step bp.obsidian hc (fun t2 hc2 =>
          (mem_next_states bp s2 t2 hok).mpr (Or.inr (Or.inl hc2)))
      · exact step bp.clay hc (fun t2 hc2 =>
          (mem_next_states bp s2 t2 hok).mpr (Or.inr (Or.inr (Or.inl hc2))))
      · exact step bp.ore hc (fun t2 hc2 =>
          (mem_next_states bp s2 t2 hok).mpr (Or.inr (Or.inr (Or.inr hc2))))

/-- The canonical start with a caller-chosen deadline. -/
def startWithDeadline (d : Int) : State :=
  { State.default with max_time := d }

/-- C9: for a fixed well-formed blueprint, a later deadline never lowers
the best terminal yield the search returns. -/
theorem claim_C9 (bp : Blueprint) (hok : BlueprintOk bp)
    (hpos : PositiveCosts bp) (d1 d2 : Int) (h1 : 1 ≤ d1) (h12 : d1 ≤ d2) :
    ∃ r1 r2, bp.find_best_outcome (startWithDeadline d1) = some (some r1) ∧
      bp.find_best_outcome (startWithDeadline d2) = some (some r2) ∧
      r1.final_geodes ≤ r2.final_geodes := by
  have hs1 : StateOk (startWithDeadline d1) :=
    ⟨by show (0 : Int) ≤ 1; decide, by show (0 : Int) ≤ 0; decide,
      by show (0 : Int) ≤ 0; decide, by show (0 : Int) ≤ 0; decide,
      by show (1 : Int) ≤ d1; omega⟩
  have hs2 : StateOk (startWithDeadline d2) :=
    ⟨by show (0 : Int) ≤ 1; decide, by show (0 : Int) ≤ 0; decide,
      by show (0 : Int) ≤ 0; decide, by show (0 : Int) ≤ 0; decide,
      by show (1 : Int) ≤ d2; omega⟩
  obtain ⟨r1, hr1, hv1⟩ := find_best_outcome_spec bp hok (startWithDeadline d1) hs1
  obtain ⟨r2, hr2, hv2⟩ := find_best_outcome_spec bp hok (startWithDeadline d2) hs2
  refine ⟨r1, r2, hr1, hr2, ?_⟩
  rw [hv1, hv2]
  set F := max (stableFuel (startWithDeadline d1)) (stableFuel (startWithDeadline d2))
  rw [← bestFG_stable bp hok F (startWithDeadline d1) hs1 (le_max_left _ _),
    ← bestFG_stable bp hok F (startWithDeadline d2) hs2 (le_max_right _ _)]
  apply bestFG_mono bp hok hpos
  refine ⟨rfl, rfl, rfl, rfl, rfl, rfl, rfl, rfl, rfl, le_refl _, ?_⟩
  show d1 ≤ d2
  omega

theorem claim_C9_witness :
    BlueprintOk bpA ∧ PositiveCosts bpA ∧ (1 : Int) ≤ 12 ∧ (12 : Int) ≤ 24 ∧
    ∃ r1 r2, bpA.find_best_outcome (startWithDeadline 12) = some (some r1) ∧
      bpA.find_best_outcome (startWithDeadline 24) = some (some r2) ∧
      r1.final_geodes ≤ r2.final_geodes :=
  ⟨by decide, by decide, by decide, by decide,
    claim_C9 bpA (by decide) (by decide) 12 24 (by decide) (by decide)⟩

/-! ## Soundness of the `relExtra` forecast (claim C4 machinery)

`relExtra` is compared against the real tree through two couplings: a
"choice" simulation `C` that mirrors the real path's obsidian/terminal
builds under cumulative-threshold accounting, and the greedy simulation
`G` that `relExtra` computes. `C` never falls behind the real ledger
(`LinkSC`) and `G` never falls behind `C` (`LinkCG`, up to a gap term for
terminal builds already banked). -/

structure GS where
  cp : Int
  clayR : Int
  op : Int
  obsR : Int
  nob : Int
  ng : Int

def relE (obClay gOb : Int) (n : Nat) (G : GS) : Int :=
  relExtra obClay gOb n G.cp G.clayR G.op G.obsR G.nob G.ng

def gStep (obClay gOb : Int) (G : GS) : GS :=
  ⟨G.cp + G.clayR, G.clayR + 1, G.op + G.obsR,
   G.obsR + (if (G.nob + 1) * obClay ≤ G.cp + G.clayR then 1 else 0),
   G.nob + (if (G.nob + 1) * obClay ≤ G.cp + G.clayR then 1 else 0),
   G.ng + (if (G.ng + 1) * gOb ≤ G.op + G.obsR then 1 else 0)⟩

def cStep (bOb bG : Bool) (C : GS) : GS :=
  ⟨C.cp + C.clayR, C.clayR + 1, C.op + C.obsR,
   C.obsR + (if bOb then 1 else 0), C.nob + (if bOb then 1 else 0),
   C.ng + (if bG then 1 else 0)⟩

def gIter (obClay gOb : Int) : Nat → GS → GS
  | 0, G => G
  | k+1, G => gIter obClay gOb k (gStep obClay gOb G)

def cSilent : Nat → GS → GS
  | 0, C => C
  | k+1, C => cSilent k (cStep false false C)

def LinkCG (C G : GS) : Prop :=
  C.cp = G.cp ∧ C.clayR = G.clayR ∧ C.op ≤ G.op ∧ C.obsR ≤ G.obsR ∧
  C.nob ≤ G.nob ∧ C.ng ≤ G.ng ∧ C.obsR - C.nob = G.obsR - G.nob

def LinkSC (obClay gOb : Int) (s : State) (C : GS) : Prop :=
  s.clay + C.nob * obClay ≤ C.cp ∧ s.clay_robots ≤ C.clayR ∧
  s.obsidian + C.ng * gOb ≤ C.op ∧ s.obsidian_robots ≤ C.obsR

theorem relE_succ (obClay gOb : Int) (n : Nat) (G : GS) :
    relE obClay gOb (n+1) G =
      (if (G.ng + 1) * gOb ≤ G.op + G.obsR then (n : Int) else 0) +
        relE obClay gOb n (gStep obClay gOb G) := rfl

theorem relE_nonneg (obClay gOb : Int) : ∀ n G, 0 ≤ relE obClay gOb n G := by
  intro n
  induction n with
  | zero => intro G; exact le_refl 0
  | succ m ih =>
    intro G
    rw [relE_succ]
    have := ih (gStep obClay gOb G)
    by_cases h : (G.ng + 1) * gOb ≤ G.op + G.obsR
    · rw [if_pos h]; omega
    · rw [if_neg h]; omega

theorem linkCG_step (obClay gOb : Int) (bOb bG : Bool) (C G : GS)
    (hv1 : bOb = true → (C.nob + 1) * obClay ≤ C.cp + C.clayR)
    (hv2 : bG = true → (C.ng + 1) * gOb ≤ C.op + C.obsR)
    (h : LinkCG C G) :
    LinkCG (cStep bOb bG C) (gStep obClay gOb G) := by
  obtain ⟨h1, h2, h3, h4, h5, h6, h7⟩ := h
  have hnob : C.nob + (if bOb then (1 : Int) else 0) ≤
      G.nob + (if (G.nob + 1) * obClay ≤ G.cp + G.clayR then (1 : Int) else 0) := by
    cases bOb with
    | false =>
      by_cases hgb : (G.nob + 1) * obClay ≤ G.cp + G.clayR <;>
        simp [hgb] <;> omega
    | true =>
      have hvb := hv1 rfl
      rcases eq_or_lt_of_le h5 with he | hl
      · have hgb : (G.nob + 1) * obClay ≤ G.cp + G.clayR := by
          rw [← he, ← h1, ← h2]
          exact hvb
        rw [if_pos hgb]
        simp
        omega
      · by_cases hgb : (G.nob + 1) * obClay ≤ G.cp + G.clayR <;>
          simp [hgb] <;> omega
  have hng : C.ng + (if bG then (1 : Int) else 0) ≤
      G.ng + (if (G.ng + 1) * gOb ≤ G.op + G.obsR then (1 : Int) else 0) := by
    cases bG with
    | false =>
      by_cases hgg : (G.ng + 1) * gOb ≤ G.op + G.obsR <;>
        simp [hgg] <;> omega
    | true =>
      have hvg := hv2 rfl
      rcases eq_or_lt_of_le h6 with he | hl
      · have hgg : (G.ng + 1) * gOb ≤ G.op + G.obsR := by
          have : (G.ng + 1) * gOb ≤ C.op + C.obsR := by rw [← he]; exact hvg
          omega
        rw [if_pos hgg]
        simp
        omega
      · by_cases hgg : (G.ng + 1) * gOb ≤ G.op + G.obsR <;>
          simp [hgg] <;> omega
  refine ⟨?_, ?_, ?_, ?_, ?_, ?_, ?_⟩ <;>
    show _
  · show C.cp + C.clayR = G.cp + G.clayR
    omega
  · show C.clayR + 1 = G.clayR + 1
    omega
  · show C.op + C.obsR ≤ G.op + G.obsR
    omega
  · show C.obsR + (if bOb then (1 : Int) else 0) ≤
      G.obsR + (if (G.nob + 1) * obClay ≤ G.cp + G.clayR then (1 : Int) else 0)
    omega
  · show C.nob + (if bOb then (1 : Int) else 0) ≤
      G.nob + (if (G.nob + 1) * obClay ≤ G.cp + G.clayR then (1 : Int) else 0)
    exact hnob
  · show C.ng + (if bG then (1 : Int) else 0) ≤
      G.ng + (if (G.ng + 1) * gOb ≤ G.op + G.obsR then (1 : Int) else 0)
    exact hng
  · show C.obsR + (if bOb then (1 : Int) else 0) - (C.nob + (if bOb then (1 : Int) else 0)) =
      G.obsR + (if (G.nob + 1) * obClay ≤ G.cp + G.clayR then (1 : Int) else 0) -
        (G.nob + (if (G.nob + 1) * obClay ≤ G.cp + G.clayR then (1 : Int) else 0))
    omega

theorem cSilent_clayR : ∀ (k : Nat) (C : GS), (cSilent k C).clayR = C.clayR + k := by
  intro k
  induction k with
  | zero => intro C; simp [cSilent]
  | succ j ih =>
    intro C
    show (cSilent j (cStep false false C)).clayR = _
    rw [ih]
    show C.clayR + 1 + (j : Int) = C.clayR + ((j : Int) + 1)
    ring

theorem cSilent_op : ∀ (k : Nat) (C : GS), (cSilent k C).op = C.op + k * C.obsR := by
  intro k
  induction k with
  | zero => intro C; simp [cSilent]
  | succ j ih =>
    intro C
    show (cSilent j (cStep false false C)).op = _
    rw [ih]
    show C.op + C.obsR + (j : Int) * (C.obsR + 0) = C.op + ((j : Int) + 1) * C.obsR
    ring

theorem cSilent_obsR : ∀ (k : Nat) (C : GS), (cSilent k C).obsR = C.obsR := by
  intro k
  induction k with
  | zero => intro C; rfl
  | succ j ih =>
    intro C
    show (cSilent j (cStep false false C)).obsR = _
    rw [ih]
    show C.obsR + 0 = C.obsR
    ring

theorem cSilent_nob : ∀ (k : Nat) (C : GS), (cSilent k C).nob = C.nob := by
  intro k
  induction k with
  | zero => intro C; rfl
  | succ j ih =>
    intro C
    show (cSilent j (cStep false false C)).nob = _
    rw [ih]
    show C.nob + 0 = C.nob
    ring

theorem cSilent_ng : ∀ (k : Nat) (C : GS), (cSilent k C).ng = C.ng := by
  intro k
  induction k with
  | zero => intro C; rfl
  | succ j ih =>
    intro C
    show (cSilent j (cStep false false C)).ng = _
    rw [ih]
    show C.ng + 0 = C.ng
    ring

theorem cSilent_cp_ge : ∀ (k : Nat) (C : GS),
    C.cp + k * C.clayR ≤ (cSilent k C).cp := by
  intro k
  induction k with
  | zero => intro C; simp [cSilent]
  | succ j ih =>
    intro C
    have h := ih (cStep false false C)
    have e1 : (cStep false false C).cp = C.cp + C.clayR := by
      show C.cp + C.clayR = _
      rfl
    have e2 : (cStep false false C).clayR = C.clayR + 1 := rfl
    rw [e1, e2] at h
    have hr : C.cp + C.clayR + (j : Int) * (C.clayR + 1)
        = C.cp + ((j : Int) + 1) * C.clayR + j := by ring
    have hc : ((j + 1 : Nat) : Int) = (j : Int) + 1 := by push_cast; ring
    show C.cp + ((j + 1 : Nat) : Int) * C.clayR ≤ (cSilent j (cStep false false C)).cp
    rw [hc]
    omega

theorem gIter_one (obClay gOb : Int) (G : GS) :
    gIter obClay gOb 1 G = gStep obClay gOb G := rfl

theorem edge_lemma (obClay gOb : Int) :
    ∀ (δ : Nat) (n : Nat) (C G : GS) (bOb bG : Bool),
      δ + 1 ≤ n →
      LinkCG C G →
      (bOb = true →
        ((cSilent δ C).nob + 1) * obClay ≤ (cSilent δ C).cp + (cSilent δ C).clayR) →
      (bG = true →
        ((cSilent δ C).ng + 1) * gOb ≤ (cSilent δ C).op + (cSilent δ C).obsR) →
      (if bG then ((n : Int) - (δ + 1)) else 0)
        + relE obClay gOb (n - (δ + 1)) (gIter obClay gOb (δ + 1) G)
        + ((gIter obClay gOb (δ + 1) G).ng - (cStep bOb bG (cSilent δ C)).ng)
            * ((n : Int) - (δ + 1))
      ≤ relE obClay gOb n G + (G.ng - C.ng) * (n : Int) := by
  intro δ
  induction δ with
  | zero =>
    intro n C G bOb bG hn hlink hv1 hv2
    obtain ⟨m, hm⟩ : ∃ m, n = m + 1 := ⟨n - 1, by omega⟩
    subst hm
    have hsub : (m + 1) - (0 + 1) = m := by omega
    have hcast : ((m + 1 : Nat) : Int) - (((0 : Nat) : Int) + 1) = (m : Int) := by
      push_cast
      ring
    rw [hsub, hcast, relE_succ]
    have hone : gIter obClay gOb (0 + 1) G = gStep obClay gOb G := rfl
    rw [hone]
    have hC0 : cSilent 0 C = C := rfl
    rw [hC0] at hv1 hv2 ⊢
    have hgap : C.ng ≤ G.ng := hlink.2.2.2.2.2.1
    cases bG with
    | false =>
      by_cases hgg : (G.ng + 1) * gOb ≤ G.op + G.obsR
      · simp only [gStep, cStep, if_pos hgg, Bool.false_eq_true, if_false]
        push_cast
        linarith
      · simp only [gStep, cStep, if_neg hgg, Bool.false_eq_true, if_false]
        push_cast
        linarith
    | true =>
      by_cases hgg : (G.ng + 1) * gOb ≤ G.op + G.obsR
      · simp only [gStep, cStep, if_pos hgg, if_true]
        push_cast
        linarith
      · simp only [gStep, cStep, if_neg hgg, if_true]
        push_cast
        linarith
  | succ δ' ih =>
    intro n C G bOb bG hn hlink hv1 hv2
    obtain ⟨m, hm⟩ : ∃ m, n = m + 1 := ⟨n - 1, by omega⟩
    subst hm
    have hlink1 : LinkCG (cStep false false C) (gStep obClay gOb G) :=
      linkCG_step obClay gOb false false C G (by intro h; cases h) (by intro h; cases h)
        hlink
    have hih := ih m (cStep false false C) (gStep obClay gOb G) bOb bG (by omega)
      hlink1 hv1 hv2
    have e1 : cSilent δ' (cStep false false C) = cSilent (δ' + 1) C := rfl
    have e2 : gIter obClay gOb (δ' + 1) (gStep obClay gOb G)
        = gIter obClay gOb (δ' + 1 + 1) G := rfl
    rw [e1, e2] at hih
    have esub : m - (δ' + 1) = (m + 1) - (δ' + 1 + 1) := by omega
    have ecast : (m : Int) - (((δ' : Nat) : Int) + 1)
        = ((m + 1 : Nat) : Int) - (((δ' + 1 : Nat) : Int) + 1) := by
      push_cast
      ring
    rw [esub, ecast] at hih
    refine le_trans hih ?_
    rw [relE_succ]
    have hgap : C.ng ≤ G.ng := hlink.2.2.2.2.2.1
    by_cases hgg : (G.ng + 1) * gOb ≤ G.op + G.obsR
    · simp only [gStep, cStep, if_pos hgg, Bool.false_eq_true, if_false]
      push_cast
      linarith
    · simp only [gStep, cStep, if_neg hgg, Bool.false_eq_true, if_false]
      push_cast
      linarith

/-- Stock non-negativity survives a feasible transition (the core of the
debug-assert argument, reused as a search-tree invariant). -/
theorem nsw_stock (s : State) (R : RobotRecipe)
    (hrob : ∀ k, 0 ≤ s.get_robots k)
    (hstock : ∀ k, 0 ≤ s.get_resource k)
    (hdist : R.cost.Pairwise (fun p q => p.1 ≠ q.1)) :
    ∀ t, s.next_state_with R = some t → ∀ k, 0 ≤ t.get_resource k := by
  intro t ht k
  by_cases hz : ∀ p ∈ R.cost, s.get_robots p.1 ≠ 0
  · have heq := next_state_with_eq s R hz
    rw [heq] at ht
    by_cases hd : s.max_time < s.time + ttbMax s R.cost
    · rw [if_pos hd] at ht
      cases ht
    · rw [if_neg hd] at ht
      cases ht
      rw [buildResult_res]
      set T := ttbMax s R.cost with hT
      have hT0 : 0 ≤ T := ttbMax_nonneg s R.cost
      by_cases hk : ∃ c, (k, c) ∈ R.cost
      · obtain ⟨c, hmem⟩ := hk
        have hrk : 0 < s.get_robots k := by
          have h1 : s.get_robots k ≠ 0 := hz (k, c) hmem
          have h2 := hrob k
          omega
        have hsum : sumCost R.cost k = c := sumCost_eq_of_mem R.cost k c hmem hdist
        have hcover := ticks_to_build_covers (s.get_resource k) (s.get_robots k) c hrk
        have hle : State.ticks_to_build (s.get_resource k) (s.get_robots k) c ≤ T :=
          mem_le_ttbMax s R.cost (k, c) hmem
        have hmul : s.get_robots k * State.ticks_to_build (s.get_resource k) (s.get_robots k) c
            ≤ s.get_robots k * T :=
          mul_le_mul_of_nonneg_left hle (le_of_lt hrk)
        rw [hsum]
        omega
      · push_neg at hk
        have hsum : sumCost R.cost k = 0 := by
          apply sumCost_eq_zero
          intro p hp hpk
          exact hk p.2 (by rw [← hpk]; exact hp)
        have h1 := hstock k
        have h2 : 0 ≤ s.get_robots k * T := mul_nonneg (hrob k) hT0
        rw [hsum]
        omega
  · push_neg at hz
    obtain ⟨p, hp, hp0⟩ := hz
    rw [next_state_with_none_of_zero s R ⟨p, hp, hp0⟩] at ht
    cases ht

/-- A blueprint of the reference shape satisfies all the conditions under
which `next_states` is panic-free. -/
theorem shapeOk_blueprintOk (bp : Blueprint) (hsh : ShapeOk bp) : BlueprintOk bp := by
  obtain ⟨htags, ho, hc, hb, hg, -, -, -, -, -, -⟩ := hsh
  refine ⟨htags, ?_, ?_, ?_, ?_, ?_, ?_, ?_⟩
  · rw [ho]; simp
  · rw [hc]; simp
  · rw [hb]; simp
  · rw [hg]; simp
  · simp [Blueprint.biggest_consumer, Blueprint.consumers, Blueprint.all_recipes,
      ho, hc, hb, hg, maxOf]
  · simp [Blueprint.biggest_consumer, Blueprint.consumers, Blueprint.all_recipes,
      ho, hc, hb, hg, maxOf]
  · simp [Blueprint.biggest_consumer, Blueprint.consumers, Blueprint.all_recipes,
      ho, hc, hb, hg, maxOf]

theorem linkCG_iter (obClay gOb : Int) :
    ∀ (δ : Nat) (C G : GS), LinkCG C G →
      LinkCG (cSilent δ C) (gIter obClay gOb δ G) := by
  intro δ
  induction δ with
  | zero => intro C G h; exact h
  | succ k ih =>
    intro C G h
    show LinkCG (cSilent k (cStep false false C)) (gIter obClay gOb k (gStep obClay gOb G))
    exact ih _ _ (linkCG_step obClay gOb false false C G
      (by intro hx; cases hx) (by intro hx; cases hx) h)

theorem gIter_succ_right (obClay gOb : Int) :
    ∀ (k : Nat) (G : GS),
      gIter obClay gOb (k + 1) G = gStep obClay gOb (gIter obClay gOb k G) := by
  intro k
  induction k with
  | zero => intro G; rfl
  | succ j ih =>
    intro G
    show gIter obClay gOb (j + 1) (gStep obClay gOb G) = _
    rw [ih (gStep obClay gOb G)]
    rfl

theorem bestFG_ge_final (bp : Blueprint) : ∀ (f : Nat) (s : State),
    s.final_geodes ≤ bp.bestFG f s := by
  intro f s
  cases f with
  | zero => exact le_refl _
  | succ g =>
    show s.final_geodes ≤ ((bp.next_states s).getD []).foldl
      (fun acc t => max acc (bp.bestFG g t)) s.final_geodes
    exact foldl_max_init_le _ _ _

theorem bestFG_ge_succ (bp : Blueprint) (f : Nat) (s t : State)
    (ht : t ∈ (bp.next_states s).getD []) :
    bp.bestFG f t ≤ bp.bestFG (f + 1) s := by
  show _ ≤ ((bp.next_states s).getD []).foldl
    (fun acc u => max acc (bp.bestFG f u)) s.final_geodes
  exact foldl_max_mem_le _ _ _ t ht

theorem foldl_max_pull {α : Type} (g : α → Int) :
    ∀ (l : List α) (x y : Int),
      l.foldl (fun a t => max a (g t)) (max x y)
        = max x (l.foldl (fun a t => max a (g t)) y) := by
  intro l
  induction l with
  | nil => intro x y; rfl
  | cons h tl ih =>
    intro x y
    simp only [List.foldl_cons]
    rw [max_assoc]
    exact ih x (max y (g h))

/-- Advancing the couplings across one real build of duration `T = δ + 1`:
the cumulative-threshold guards hold for the kinds actually built (from the
successor's non-negative stock), and `LinkSC` carries over to the successor
ledger's tracked fields. -/
theorem link_step (obClay gOb : Int) (s : State) (C : GS) (T : Int) (δ : Nat)
    (bOb bG bC : Bool)
    (hδ : (δ : Int) = T - 1)
    (hsc : LinkSC obClay gOb s C)
    (tclay tclayR tobs tobsR : Int)
    (htclay : tclay = s.clay + s.clay_robots * T - (if bOb then obClay else 0))
    (htclayR : tclayR = s.clay_robots + (if bC then 1 else 0))
    (htobs : tobs = s.obsidian + s.obsidian_robots * T - (if bG then gOb else 0))
    (htobsR : tobsR = s.obsidian_robots + (if bOb then 1 else 0))
    (hclay0 : 0 ≤ tclay) (hobs0 : 0 ≤ tobs) :
    (bOb = true →
      ((cSilent δ C).nob + 1) * obClay ≤ (cSilent δ C).cp + (cSilent δ C).clayR) ∧
    (bG = true →
      ((cSilent δ C).ng + 1) * gOb ≤ (cSilent δ C).op + (cSilent δ C).obsR) ∧
    tclay + (cStep bOb bG (cSilent δ C)).nob * obClay ≤ (cStep bOb bG (cSilent δ C)).cp ∧
    tclayR ≤ (cStep bOb bG (cSilent δ C)).clayR ∧
    tobs + (cStep bOb bG (cSilent δ C)).ng * gOb ≤ (cStep bOb bG (cSilent δ C)).op ∧
    tobsR ≤ (cStep bOb bG (cSilent δ C)).obsR := by
  obtain ⟨hs1, hs2, hs3, hs4⟩ := hsc
  have hδ0 : (0 : Int) ≤ (δ : Int) := Int.natCast_nonneg δ
  have hTδ : T = (δ : Int) + 1 := by omega
  subst hTδ
  have hcp := cSilent_cp_ge δ C
  have hclR := cSilent_clayR δ C
  have hop := cSilent_op δ C
  have hobR := cSilent_obsR δ C
  have hnob := cSilent_nob δ C
  have hng := cSilent_ng δ C
  have hm1 : s.clay_robots * ((δ : Int) + 1) ≤ C.clayR * ((δ : Int) + 1) :=
    mul_le_mul_of_nonneg_right hs2 (by omega)
  have hm2 : s.obsidian_robots * ((δ : Int) + 1) ≤ C.obsR * ((δ : Int) + 1) :=
    mul_le_mul_of_nonneg_right hs4 (by omega)
  refine ⟨?_, ?_, ?_, ?_, ?_, ?_⟩
  · intro hb
    subst hb
    simp only [if_true] at htclay
    rw [hnob, hclR]
    linarith [hcp, hclay0, htclay, hm1, hs1, hδ0]
  · intro hb
    subst hb
    simp only [if_true] at htobs
    rw [hng, hop, hobR]
    linarith [hobs0, htobs, hm2, hs3, hδ0]
  · simp only [cStep, hnob, hclR]
    cases bOb with
    | false =>
      simp only [Bool.false_eq_true, if_false] at htclay ⊢
      linarith [hcp, htclay, hm1, hs1, hδ0]
    | true =>
      simp only [if_true] at htclay ⊢
      linarith [hcp, htclay, hm1, hs1, hδ0]
  · simp only [cStep, hclR]
    cases bC with
    | false =>
      simp only [Bool.false_eq_true, if_false] at htclayR ⊢
      linarith [hclR, hδ0]
    | true =>
      simp only [if_true] at htclayR ⊢
      linarith [hclR, hδ0]
  · simp only [cStep, hng, hop, hobR]
    cases bG with
    | false =>
      simp only [Bool.false_eq_true, if_false] at htobs ⊢
      linarith [htobs, hm2, hs3, hδ0]
    | true =>
      simp only [if_true] at htobs ⊢
      linarith [htobs, hm2, hs3, hδ0]
  · simp only [cStep, hobR]
    cases bOb with
    | false =>
      simp only [Bool.false_eq_true, if_false] at htobsR ⊢
      linarith [hobR]
    | true =>
      simp only [if_true] at htobsR ⊢
      linarith [hobR]

theorem if_transport {p q : Prop} [Decidable p] [Decidable q] (h : p ↔ q) (x : Int) :
    (if p then x else 0) = (if q then x else 0) := by
  by_cases hp : p
  · rw [if_pos hp, if_pos (h.mp hp)]
  · rw [if_neg hp, if_neg (fun hq => hp (h.mpr hq))]

/-- One element of the successor fold, bounded through the couplings: a
real build via recipe `r` (flags telling which tracked robot kind it adds)
stays below the greedy forecast of the parent. -/
theorem elem_bound (bp : Blueprint) (f : Nat)
    (ih : ∀ s C G, StateOk s → StockOk s →
      LinkSC (costVal bp.obsidian .Clay) (costVal bp.geode .Obsidian) s C →
      LinkCG C G →
      bp.bestFG f s ≤ s.final_geodes
        + relE (costVal bp.obsidian .Clay) (costVal bp.geode .Obsidian)
            s.time_left.toNat G
        + (G.ng - C.ng) * (s.time_left.toNat : Int))
    (s t : State) (C G : GS) (r : RobotRecipe) (bOb bG bC : Bool)
    (hso : StateOk s)
    (hsc : LinkSC (costVal bp.obsidian .Clay) (costVal bp.geode .Obsidian) s C)
    (hcg : LinkCG C G)
    (htok : StateOk t) (htsk : StockOk t)
    (hz : ∀ p ∈ r.cost, s.get_robots p.1 ≠ 0)
    (hrob0 : ∀ k, 0 ≤ s.get_robots k)
    (hne : r.cost ≠ [])
    (hsumC : sumCost r.cost .Clay = (if bOb then costVal bp.obsidian .Clay else 0))
    (hsumB : sumCost r.cost .Obsidian = (if bG then costVal bp.geode .Obsidian else 0))
    (hciff : r.produces = .Clay ↔ bC = true)
    (hbiff : r.produces = .Obsidian ↔ bOb = true)
    (hgiff : r.produces = .Geode ↔ bG = true)
    (hnext : s.next_state_with r = some t) :
    bp.bestFG f t ≤ s.final_geodes
      + relE (costVal bp.obsidian .Clay) (costVal bp.geode .Obsidian)
          s.time_left.toNat G
      + (G.ng - C.ng) * (s.time_left.toNat : Int) := by
  have hpos : ∀ p ∈ r.cost, 0 < s.get_robots p.1 := fun p hp => by
    have h1 := hz p hp
    have h2 := hrob0 p.1
    omega
  rw [next_state_with_eq s r hz] at hnext
  by_cases hdl : s.max_time < s.time + ttbMax s r.cost
  · rw [if_pos hdl] at hnext
    cases hnext
  · rw [if_neg hdl] at hnext
    have ht_eq : t = buildResult s r (ttbMax s r.cost) := (Option.some.inj hnext).symm
    subst ht_eq
    set n := s.time_left.toNat with hndef
    set T := ttbMax s r.cost with hTdef
    set δn := (T - 1).toNat with hδdef
    have hT1 : 1 ≤ T := by rw [hTdef]; exact ttbMax_pos s r.cost hne hpos
    have h5 : s.time ≤ s.max_time := hso.2.2.2.2
    have enl : s.time_left = s.max_time - s.time := rfl
    have hδI : ((δn : Nat) : Int) = T - 1 := by
      rw [hδdef]
      omega
    have hnI : ((n : Nat) : Int) = s.max_time - s.time := by
      rw [hndef]
      omega
    have htclay : (buildResult s r T).clay
        = s.clay + s.clay_robots * T - (if bOb then costVal bp.obsidian .Clay else 0) := by
      show s.clay + s.clay_robots * T - sumCost r.cost .Clay = _
      rw [hsumC]
    have htobs : (buildResult s r T).obsidian
        = s.obsidian + s.obsidian_robots * T
          - (if bG then costVal bp.geode .Obsidian else 0) := by
      show s.obsidian + s.obsidian_robots * T - sumCost r.cost .Obsidian = _
      rw [hsumB]
    have htclayR : (buildResult s r T).clay_robots
        = s.clay_robots + (if bC then 1 else 0) := by
      show s.clay_robots + (if r.produces = .Clay then (1 : Int) else 0) = _
      rw [if_transport hciff 1]
    have htobsR : (buildResult s r T).obsidian_robots
        = s.obsidian_robots + (if bOb then 1 else 0) := by
      show s.obsidian_robots + (if r.produces = .Obsidian then (1 : Int) else 0) = _
      rw [if_transport hbiff 1]
    have hclay0 : 0 ≤ (buildResult s r T).clay := htsk.2.1
    have hobs0 : 0 ≤ (buildResult s r T).obsidian := htsk.2.2.1
    obtain ⟨hv1, hv2, sc1, sc2, sc3, sc4⟩ :=
      link_step (costVal bp.obsidian .Clay) (costVal bp.geode .Obsidian) s C T δn
        bOb bG bC (by omega) hsc _ _ _ _ htclay htclayR htobs htobsR hclay0 hobs0
    have hcg' : LinkCG (cStep bOb bG (cSilent δn C))
        (gIter (costVal bp.obsidian .Clay) (costVal bp.geode .Obsidian) (δn + 1) G) := by
      rw [gIter_succ_right]
      exact linkCG_step _ _ bOb bG _ _ hv1 hv2
        (linkCG_iter (costVal bp.obsidian .Clay) (costVal bp.geode .Obsidian) δn C G hcg)
    have hsc' : LinkSC (costVal bp.obsidian .Clay) (costVal bp.geode .Obsidian)
        (buildResult s r T) (cStep bOb bG (cSilent δn C)) := ⟨sc1, sc2, sc3, sc4⟩
    have hIH := ih (buildResult s r T) (cStep bOb bG (cSilent δn C))
      (gIter (costVal bp.obsidian .Clay) (costVal bp.geode .Obsidian) (δn + 1) G)
      htok htsk hsc' hcg'
    have hidx : (buildResult s r T).time_left.toNat = n - (δn + 1) := by
      have e1 : (buildResult s r T).time_left = s.max_time - (s.time + T) := rfl
      omega
    rw [hidx] at hIH
    have hc2 : ((n - (δn + 1) : Nat) : Int) = (n : Int) - ((δn : Int) + 1) := by omega
    rw [hc2] at hIH
    have hfin : (buildResult s r T).final_geodes
        = s.final_geodes + (if bG then (s.max_time - (s.time + T)) else 0) := by
      rw [buildResult_final, if_transport hgiff (s.max_time - (s.time + T))]
    rw [hfin] at hIH
    have hedge := edge_lemma (costVal bp.obsidian .Clay) (costVal bp.geode .Obsidian)
      δn n C G bOb bG (by omega) hcg hv1 hv2
    cases bG with
    | false =>
      simp only [Bool.false_eq_true, if_false] at hIH hedge
      linarith [hIH, hedge]
    | true =>
      simp only [if_true] at hIH hedge
      have hfix : s.max_time - (s.time + T) = (n : Int) - ((δn : Int) + 1) := by omega
      rw [hfix] at hIH
      linarith [hIH, hedge]

/-- Soundness of the greedy forecast: the pruned-tree maximum from `s`
never exceeds the banked total plus the relaxed forecast (plus the gap
credit carried by the couplings). -/
theorem bestFG_le_rel (bp : Blueprint) (hsh : ShapeOk bp) :
    ∀ (f : Nat) (s : State) (C G : GS),
      StateOk s → StockOk s →
      LinkSC (costVal bp.obsidian .Clay) (costVal bp.geode .Obsidian) s C →
      LinkCG C G →
      bp.bestFG f s ≤ s.final_geodes
        + relE (costVal bp.obsidian .Clay) (costVal bp.geode .Obsidian)
            s.time_left.toNat G
        + (G.ng - C.ng) * (s.time_left.toNat : Int) := by
  have hok := shapeOk_blueprintOk bp hsh
  obtain ⟨⟨hto, htc, htb, htg⟩, hoC, hcC, hbC, hgC, -, -, -, -, -, -⟩ := hsh
  intro f
  induction f with
  | zero =>
    intro s C G hso hsk hsc hcg
    have h1 := relE_nonneg (costVal bp.obsidian .Clay) (costVal bp.geode .Obsidian)
      s.time_left.toNat G
    have h2 : C.ng ≤ G.ng := hcg.2.2.2.2.2.1
    have h3 : (0 : Int) ≤ (s.time_left.toNat : Int) := Int.natCast_nonneg _
    have h4 : 0 ≤ (G.ng - C.ng) * (s.time_left.toNat : Int) :=
      mul_nonneg (by omega) h3
    show s.final_geodes ≤ _
    linarith
  | succ f ih =>
    intro s C G hso hsk hsc hcg
    show ((bp.next_states s).getD []).foldl (fun acc t => max acc (bp.bestFG f t))
        s.final_geodes ≤ _
    apply foldl_max_le
    · have h1 := relE_nonneg (costVal bp.obsidian .Clay) (costVal bp.geode .Obsidian)
        s.time_left.toNat G
      have h2 : C.ng ≤ G.ng := hcg.2.2.2.2.2.1
      have h3 : (0 : Int) ≤ (s.time_left.toNat : Int) := Int.natCast_nonneg _
      have h4 : 0 ≤ (G.ng - C.ng) * (s.time_left.toNat : Int) :=
        mul_nonneg (by omega) h3
      linarith
    · intro t ht
      have hrob : ∀ k, 0 ≤ s.get_robots k := by
        intro k
        cases k
        · exact hso.1
        · exact hso.2.1
        · exact hso.2.2.1
        · exact hso.2.2.2.1
      have hstock : ∀ k, 0 ≤ s.get_resource k := by
        intro k
        cases k
        · exact hsk.1
        · exact hsk.2.1
        · exact hsk.2.2.1
        · exact hsk.2.2.2
      have htok : StateOk t := ((nextStates_sound bp s hok hso) t ht).1
      obtain ⟨r, hr, hnext⟩ := mem_next_states_recipe bp s t hok ht
      by_cases hz : ∀ p ∈ r.cost, s.get_robots p.1 ≠ 0
      · rcases hr with h | h | h | h
        · subst h
          have hdist : bp.geode.cost.Pairwise (fun p q => p.1 ≠ q.1) := by
            rw [hgC]; simp
          have htsk : StockOk t := by
            have hh := nsw_stock s bp.geode hrob hstock hdist t hnext
            exact ⟨hh .Ore, hh .Clay, hh .Obsidian, hh .Geode⟩
          exact elem_bound bp f ih s t C G bp.geode false true false hso hsc hcg
            htok htsk hz hrob (by rw [hgC]; simp)
            (by rw [hgC]; simp [sumCost]) (by rw [hgC]; simp [sumCost])
            (by rw [htg]; simp) (by rw [htg]; simp) (by rw [htg]; simp) hnext
        · subst h
          have hdist : bp.obsidian.cost.Pairwise (fun p q => p.1 ≠ q.1) := by
            rw [hbC]; simp
          have htsk : StockOk t := by
            have hh := nsw_stock s bp.obsidian hrob hstock hdist t hnext
            exact ⟨hh .Ore, hh .Clay, hh .Obsidian, hh .Geode⟩
          exact elem_bound bp f ih s t C G bp.obsidian true false false hso hsc hcg
            htok htsk hz hrob (by rw [hbC]; simp)
            (by rw [hbC]; simp [sumCost]) (by rw [hbC]; simp [sumCost])
            (by rw [htb]; simp) (by rw [htb]; simp) (by rw [htb]; simp) hnext
        · subst h
          have hdist : bp.clay.cost.Pairwise (fun p q => p.1 ≠ q.1) := by
            rw [hcC]; simp
          have htsk : StockOk t := by
            have hh := nsw_stock s bp.clay hrob hstock hdist t hnext
            exact ⟨hh .Ore, hh .Clay, hh .Obsidian, hh .Geode⟩
          exact elem_bound bp f ih s t C G bp.clay false false true hso hsc hcg
            htok htsk hz hrob (by rw [hcC]; simp)
            (by rw [hcC]; simp [sumCost]) (by rw [hcC]; simp [sumCost])
            (by rw [htc]; simp) (by rw [htc]; simp) (by rw [htc]; simp) hnext
        · subst h
          have hdist : bp.ore.cost.Pairwise (fun p q => p.1 ≠ q.1) := by
            rw [hoC]; simp
          have htsk : StockOk t := by
            have hh := nsw_stock s bp.ore hrob hstock hdist t hnext
            exact ⟨hh .Ore, hh .Clay, hh .Obsidian, hh .Geode⟩
          exact elem_bound bp f ih s t C G bp.ore false false false hso hsc hcg
            htok htsk hz hrob (by rw [hoC]; simp)
            (by rw [hoC]; simp [sumCost]) (by rw [hoC]; simp [sumCost])
            (by rw [hto]; simp) (by rw [hto]; simp) (by rw [hto]; simp) hnext
      · push_neg at hz
        obtain ⟨p, hp, hp0⟩ := hz
        rw [next_state_with_none_of_zero s r ⟨p, hp, hp0⟩] at hnext
        cases hnext

/-- The branch-and-bound cut is sound: the subtree maximum never exceeds
the banked total plus `ubound`. -/
theorem bestFG_le_ubound (bp : Blueprint) (hsh : ShapeOk bp) (f : Nat) (s : State)
    (hso : StateOk s) (hsk : StockOk s) :
    bp.bestFG f s ≤ s.final_geodes + bp.ubound s := by
  have h := bestFG_le_rel bp hsh f s
    ⟨s.clay, s.clay_robots, s.obsidian, s.obsidian_robots, 0, 0⟩
    ⟨s.clay, s.clay_robots, s.obsidian, s.obsidian_robots, 0, 0⟩
    hso hsk
    ⟨by simp, le_refl _, by simp, le_refl _⟩
    ⟨rfl, rfl, le_refl _, le_refl _, le_refl _, le_refl _, rfl⟩
  have he : bp.ubound s = relE (costVal bp.obsidian .Clay) (costVal bp.geode .Obsidian)
      s.time_left.toNat ⟨s.clay, s.clay_robots, s.obsidian, s.obsidian_robots, 0, 0⟩ := rfl
  rw [he]
  linarith [h]

/-- Successors of a ledger with non-negative stock keep non-negative
stock (shape gives pairwise-distinct cost kinds for every recipe). -/
theorem nextStates_stock (bp : Blueprint) (hsh : ShapeOk bp) (s : State)
    (hso : StateOk s) (hsk : StockOk s) :
    ∀ t ∈ (bp.next_states s).getD [], StockOk t := by
  have hok := shapeOk_blueprintOk bp hsh
  obtain ⟨⟨hto, htc, htb, htg⟩, hoC, hcC, hbC, hgC, -, -, -, -, -, -⟩ := hsh
  intro t ht
  have hrob : ∀ k, 0 ≤ s.get_robots k := by
    intro k
    cases k
    · exact hso.1
    · exact hso.2.1
    · exact hso.2.2.1
    · exact hso.2.2.2.1
  have hstock : ∀ k, 0 ≤ s.get_resource k := by
    intro k
    cases k
    · exact hsk.1
    · exact hsk.2.1
    · exact hsk.2.2.1
    · exact hsk.2.2.2
  obtain ⟨r, hr, hnext⟩ := mem_next_states_recipe bp s t hok ht
  have hdist : r.cost.Pairwise (fun p q => p.1 ≠ q.1) := by
    rcases hr with h | h | h | h <;> subst h
    · rw [hgC]; simp
    · rw [hbC]; simp
    · rw [hcC]; simp
    · rw [hoC]; simp
  have hh := nsw_stock s r hrob hstock hdist t hnext
  exact ⟨hh .Ore, hh .Clay, hh .Obsidian, hh .Geode⟩

theorem bb_foldl (bp : Blueprint) (f : Nat)
    (hstep : ∀ s acc, StateOk s → StockOk s →
      bp.bbFG f s acc = max acc (bp.bestFG f s)) :
    ∀ (l : List State) (a : Int), (∀ t ∈ l, StateOk t ∧ StockOk t) →
      l.foldl (fun a t => bp.bbFG f t a) a
        = l.foldl (fun a t => max a (bp.bestFG f t)) a := by
  intro l
  induction l with
  | nil => intro a _; rfl
  | cons x xs ih =>
    intro a h
    have hx := h x (List.mem_cons_self x xs)
    simp only [List.foldl_cons]
    rw [hstep x a hx.1 hx.2]
    exact ih _ (fun y hy => h y (List.mem_cons_of_mem x hy))

/-- The branch-and-bound traversal computes exactly the running max with
the tree maximum: the cut never loses the optimum. -/
theorem bbFG_eq (bp : Blueprint) (hsh : ShapeOk bp) :
    ∀ (f : Nat) (s : State) (acc : Int), StateOk s → StockOk s →
      bp.bbFG f s acc = max acc (bp.bestFG f s) := by
  have hok := shapeOk_blueprintOk bp hsh
  intro f
  induction f with
  | zero => intro s acc _ _; rfl
  | succ f ih =>
    intro s acc hso hsk
    show (if s.final_geodes + bp.ubound s ≤ acc then acc
      else ((bp.next_states s).getD []).foldl (fun a t => bp.bbFG f t a)
        (max acc s.final_geodes)) = _
    by_cases hcut : s.final_geodes + bp.ubound s ≤ acc
    · rw [if_pos hcut]
      have h1 := bestFG_le_ubound bp hsh (f + 1) s hso hsk
      exact (max_eq_left (le_trans h1 hcut)).symm
    · rw [if_neg hcut]
      have hsucc : ∀ t ∈ (bp.next_states s).getD [], StateOk t ∧ StockOk t :=
        fun t ht => ⟨((nextStates_sound bp s hok hso) t ht).1,
          nextStates_stock bp hsh s hso hsk t ht⟩
      rw [bb_foldl bp f (fun u a hu1 hu2 => ih u a hu1 hu2) _ _ hsucc]
      rw [show bp.bestFG (f + 1) s = ((bp.next_states s).getD []).foldl
        (fun acc t => max acc (bp.bestFG f t)) s.final_geodes from rfl]
      exact foldl_max_pull (fun t => bp.bestFG f t) _ acc s.final_geodes

/-- `bbFG` with the ledger unpacked into scalar arguments (and the
blueprint's six costs and three max-consumers as fixed parameters), the
form the kernel can evaluate quickly. Successor formulas follow
`buildResult` under the reference shape. -/
def bbP (mt oo co bo bc go gb mo mc mb : Int) :
    Nat → Int → Int → Int → Int → Int → Int → Int → Int → Int → Int
  | 0, _time, _ore, _clay, _obs, _oreR, _clayR, _obsR, fin, acc => max acc fin
  | f+1, time, ore, clay, obs, oreR, clayR, obsR, fin, acc =>
    if fin + relExtra bc gb (mt - time).toNat clay clayR obs obsR 0 0 ≤ acc then acc
    else
      let a0 := max acc fin
      let a1 :=
        if oreR = 0 then a0
        else if obsR = 0 then a0
        else if mt < time +
            (max (max 0 (State.ticks_to_build ore oreR go))
              (State.ticks_to_build obs obsR gb)) then a0
        else bbP mt oo co bo bc go gb mo mc mb f
          (time + (max (max 0 (State.ticks_to_build ore oreR go))
            (State.ticks_to_build obs obsR gb)))
          (ore + oreR * (max (max 0 (State.ticks_to_build ore oreR go))
            (State.ticks_to_build obs obsR gb)) - go)
          (clay + clayR * (max (max 0 (State.ticks_to_build ore oreR go))
            (State.ticks_to_build obs obsR gb)))
          (obs + obsR * (max (max 0 (State.ticks_to_build ore oreR go))
            (State.ticks_to_build obs obsR gb)) - gb)
          oreR clayR obsR
          (fin + (mt - (time + (max (max 0 (State.ticks_to_build ore oreR go))
            (State.ticks_to_build obs obsR gb))))) a0
      let a2 :=
        if (mt - time) * mb > obs then
          (if oreR = 0 then a1
           else if clayR = 0 then a1
           else if mt < time +
               (max (max 0 (State.ticks_to_build ore oreR bo))
                 (State.ticks_to_build clay clayR bc)) then a1
           else bbP mt oo co bo bc go gb mo mc mb f
             (time + (max (max 0 (State.ticks_to_build ore oreR bo))
               (State.ticks_to_build clay clayR bc)))
             (ore + oreR * (max (max 0 (State.ticks_to_build ore oreR bo))
               (State.ticks_to_build clay clayR bc)) - bo)
             (clay + clayR * (max (max 0 (State.ticks_to_build ore oreR bo))
               (State.ticks_to_build clay clayR bc)) - bc)
             (obs + obsR * (max (max 0 (State.ticks_to_build ore oreR bo))
               (State.ticks_to_build clay clayR bc)))
             oreR clayR (obsR + 1) fin a1)
        else a1
      let a3 :=
        if (mt - time) * mc > clay then
          (if oreR = 0 then a2
           else if mt < time + (max 0 (State.ticks_to_build ore oreR co)) then a2
           else bbP mt oo co bo bc go gb mo mc mb f
             (time + (max 0 (State.ticks_to_build ore oreR co)))
             (ore + oreR * (max 0 (State.ticks_to_build ore oreR co)) - co)
             (clay + clayR * (max 0 (State.ticks_to_build ore oreR co)))
             (obs + obsR * (max 0 (State.ticks_to_build ore oreR co)))
             oreR (clayR + 1) obsR fin a2)
        else a2
      let a4 :=
        if (mt - time) * mo > ore then
          (if oreR = 0 then a3
           else if mt < time + (max 0 (State.ticks_to_build ore oreR oo)) then a3
           else bbP mt oo co bo bc go gb mo mc mb f
             (time + (max 0 (State.ticks_to_build ore oreR oo)))
             (ore + oreR * (max 0 (State.ticks_to_build ore oreR oo)) - oo)
             (clay + clayR * (max 0 (State.ticks_to_build ore oreR oo)))
             (obs + obsR * (max 0 (State.ticks_to_build ore oreR oo)))
             (oreR + 1) clayR obsR fin a3)
        else a3
      a4

/-- Feed an optional successor to the accumulator function. -/
def stepOpt (g : State → Int → Int) (a : Int) : Option State → Int
  | none => a
  | some t => g t a

theorem foldl_filterMap4 (o1 o2 o3 o4 : Option State) (g : State → Int → Int)
    (a : Int) :
    (([o1, o2, o3, o4]).filterMap (fun o => o)).foldl (fun a t => g t a) a
      = stepOpt g (stepOpt g (stepOpt g (stepOpt g a o1) o2) o3) o4 := by
  cases o1 <;> cases o2 <;> cases o3 <;> cases o4 <;> rfl
